import Mathlib

/-!
Verification of the beluga-core persistent dictionary engine.

Keys and values are modelled as byte sequences (`List Nat`), matching the
Rust representation: `EntryKey` stores a UTF-8 string compared bytewise
(`src/beluga.rs`), `EntryValue` stores raw bytes.  Smoothing is ASCII
lower-casing of each byte.  All definitions are shallow embeddings of the
functions in `src/tree.rs`, `src/lru.rs`, `src/dictionary.rs` and
`src/beluga.rs`; partial operations of the source (panics: index out of
bounds, integer underflow, `unwrap`) are modelled by `Option`/`Except`
with `none`/`.error ()` standing for an abort.
-/

set_option maxHeartbeats 1000000

abbrev Key := List Nat

abbrev Value := List Nat

/-- ASCII lower-casing of a single byte (`A`..`Z` map to `a`..`z`). -/
def asciiLower (b : Nat) : Nat := if 65 ≤ b ∧ b ≤ 90 then b + 32 else b

/-- `EntryKey::smooth` (`src/beluga.rs`): lower-case the key. -/
def smooth (k : Key) : Key := k.map asciiLower

/-- Comparison of two bytes, as Rust `u8::cmp`. -/
def cmpN (a b : Nat) : Ordering := if a < b then .lt else if b < a then .gt else .eq

/-- Lexicographic byte comparison, as Rust `[u8]::cmp` / `String::cmp`. -/
def cmpK : Key → Key → Ordering
  | [], [] => .eq
  | [], _ :: _ => .lt
  | _ :: _, [] => .gt
  | x :: xs, y :: ys =>
    match cmpN x y with
    | .eq => cmpK xs ys
    | o => o

/-- The comparison performed at position `mi` inside `Node::index_of`
(`src/tree.rs` lines 157-162): the already-smoothed search key is compared
with the record key, which is smoothed again iff the node is a leaf. -/
def cmpAt (leaf : Bool) (recs : List Key) (skey : Key) (mi : Nat) : Ordering :=
  if leaf then cmpK skey (smooth (recs.getD mi [])) else cmpK skey (recs.getD mi [])

/-- The binary-search loop of `Node::index_of` (`src/tree.rs` lines 151-193).
`skey` is the search key after the initial `key.smooth()`.  The interval
`[li, hi]` shrinks strictly on every pass, so the fuel `recs.length`
supplied by `indexOf` always suffices; running out of fuel (`none`) is an
embedding artifact that never occurs from `indexOf`. -/
def iofLoop (leaf : Bool) (recs : List Key) (skey : Key) :
    Nat → Nat → Nat → Option (Nat × Ordering)
  | 0, _, _ => none
  | fuel + 1, li, hi =>
    if hi = li then some (hi, cmpAt leaf recs skey ((hi + li) / 2))
    else if hi - li = 1 then
      if (hi + li) / 2 = li then
        if cmpAt leaf recs skey ((hi + li) / 2) = Ordering.gt then
          some (hi, cmpAt leaf recs skey hi)
        else some (li, cmpAt leaf recs skey ((hi + li) / 2))
      else some (li, cmpAt leaf recs skey ((hi + li) / 2))
    else if cmpAt leaf recs skey ((hi + li) / 2) = Ordering.lt then
      iofLoop leaf recs skey fuel li ((hi + li) / 2)
    else if cmpAt leaf recs skey ((hi + li) / 2) = Ordering.gt then
      iofLoop leaf recs skey fuel ((hi + li) / 2) hi
    else some ((hi + li) / 2, cmpAt leaf recs skey ((hi + li) / 2))

/-- `Node::index_of` (`src/tree.rs` lines 145-196).  The search key is
smoothed unconditionally (line 147).  On a node with no records the initial
`self.records.len() - 1` underflows and the record accesses go out of
bounds, i.e. the call aborts: modelled by `none`. -/
def indexOf (leaf : Bool) (recs : List Key) (key : Key) : Option (Nat × Ordering) :=
  if recs.length = 0 then none
  else iofLoop leaf recs (smooth key) recs.length 0 (recs.length - 1)

/-! ## LRU node cache (`src/lru.rs`)

The intrusive doubly-linked list plus hash map is modelled as a single
association list ordered head (most recent) first; the `len` and `cap`
fields are carried verbatim.  Note that `LruCache::put` in the source never
increases `self.len`; the model reproduces that faithfully. -/

structure LruEntry (K V : Type) where
  key : K
  val : V
  size : Nat
  deriving DecidableEq

structure LruCache (K V : Type) where
  cap : Nat
  len : Nat
  entries : List (LruEntry K V)
  deriving DecidableEq

/-- `LruCache::new`. -/
def LruCache.new (K V : Type) (cap : Nat) : LruCache K V :=
  { cap := cap, len := 0, entries := [] }

/-- The eviction loop of `LruCache::shrink`, acting on the recency list
reversed (tail of the cache first): evict while `len > cap`. -/
def shrinkRev {K V : Type} (cap : Nat) : Nat → List (LruEntry K V) → Nat × List (LruEntry K V)
  | len, [] => (len, [])
  | len, e :: rest =>
    if len ≤ cap then (len, e :: rest) else shrinkRev cap (len - e.size) rest

/-- `LruCache::shrink` (`src/lru.rs` lines 106-118): evict from the tail
while `len > cap`, subtracting the evicted entry size from `len`. -/
def lruShrink {K V : Type} (cap : Nat) (len : Nat) (entries : List (LruEntry K V)) :
    Nat × List (LruEntry K V) :=
  let p := shrinkRev cap len entries.reverse
  (p.1, p.2.reverse)

/-- `LruCache::put` (`src/lru.rs` lines 42-92): insert or replace, move to
the head, then `shrink`; returns the head value (`None` models the panic of
`self.head.unwrap()` on an empty list).  On replacement the stored `size`
is kept (the source does not recompute it), and `self.len` is never
increased, exactly as in the source. -/
def LruCache.put {K V : Type} [DecidableEq K] (sz : V → Nat) (c : LruCache K V)
    (k : K) (v : V) : LruCache K V × Option V :=
  let entries1 :=
    match c.entries.find? (fun e => e.key == k) with
    | some e => { key := k, val := v, size := e.size } :: c.entries.eraseP (fun x => x.key == k)
    | none => { key := k, val := v, size := sz v } :: c.entries
  let p := lruShrink c.cap c.len entries1
  ({ cap := c.cap, len := p.1, entries := p.2 }, p.2.head?.map (fun e => e.val))

/-- `LruCache::get` (`src/lru.rs` lines 94-99): lookup without touching
recency. -/
def LruCache.get {K V : Type} [DecidableEq K] (c : LruCache K V) (k : K) : Option V :=
  (c.entries.find? (fun e => e.key == k)).map (fun e => e.val)

/-- `LruCache::resize` (`src/lru.rs` lines 101-104). -/
def LruCache.resize {K V : Type} (c : LruCache K V) (size : Nat) : LruCache K V :=
  let p := lruShrink size c.len c.entries
  { cap := size, len := p.1, entries := p.2 }

/-- Total charged size of the entries resident in the cache. -/
def LruCache.residentSize {K V : Type} (c : LruCache K V) : Nat :=
  (c.entries.map (fun e => e.size)).sum

/-! ## UTF-8 validity, trimming, redirects (`src/dictionary.rs`, `src/beluga.rs`)

`String::from_utf8` succeeds exactly on valid UTF-8; `str::trim` removes
leading and trailing whitespace (modelled for the ASCII whitespace bytes). -/

def isCont (c : Nat) : Bool := 128 ≤ c && c ≤ 191

/-- UTF-8 validity of a byte sequence (the success condition of
`String::from_utf8`). -/
def utf8Valid : List Nat → Bool
  | [] => true
  | b :: l =>
    if b < 128 then utf8Valid l
    else if b < 194 then false
    else if b ≤ 223 then
      match l with
      | c :: l2 => isCont c && utf8Valid l2
      | [] => false
    else if b ≤ 239 then
      match l with
      | c1 :: c2 :: l2 =>
        (if b = 224 then decide (160 ≤ c1) else true) &&
          (if b = 237 then decide (c1 ≤ 159) else true) &&
          isCont c1 && isCont c2 && utf8Valid l2
      | _ => false
    else if b ≤ 244 then
      match l with
      | c1 :: c2 :: c3 :: l2 =>
        (if b = 240 then decide (144 ≤ c1) else true) &&
          (if b = 244 then decide (c1 ≤ 143) else true) &&
          isCont c1 && isCont c2 && isCont c3 && utf8Valid l2
      | _ => false
    else false

def isWsB (b : Nat) : Bool := b == 32 || (9 ≤ b && b ≤ 13)

/-- `str::trim`, on the ASCII whitespace bytes. -/
def trimBytes (s : List Nat) : List Nat :=
  ((s.dropWhile isWsB).reverse.dropWhile isWsB).reverse

/-- The bytes of the redirect marker `@@@LINK=` (`src/dictionary.rs` line 24). -/
def REDIRECT : List Nat := [64, 64, 64, 76, 73, 78, 75, 61]

/-- The loop body of `Dictionary::search_entry` (`src/dictionary.rs` lines
456-475), parameterised by the entry-tree lookup
(`self.entry.search_entry(cache, self.entry.entry_root, &keyword)`).
Each iteration consumes one unit of fuel; the caller passes 3
(`max_redirects`).  A lookup hit whose bytes are not valid UTF-8 falls
through to the next iteration with the keyword unchanged, as in the source. -/
def dictSearchEntry (lookup : Key → Except Unit (Option Value)) :
    Nat → Key → Except Unit (Option Value)
  | 0, _ => .ok none
  | fuel + 1, keyword =>
    match lookup keyword with
    | .error e => .error e
    | .ok none => dictSearchEntry lookup fuel keyword
    | .ok (some data) =>
      if utf8Valid data then
        let s := trimBytes data
        if REDIRECT.isPrefixOf s then dictSearchEntry lookup fuel (s.drop REDIRECT.length)
        else .ok (some data)
      else dictSearchEntry lookup fuel keyword

/-- `Dictionary::search_entry` (`src/dictionary.rs` lines 450-476):
at most 3 redirect-following lookups. -/
def dictionarySearchEntry (lookup : Key → Except Unit (Option Value)) (name : Key) :
    Except Unit (Option Value) :=
  dictSearchEntry lookup 3 name

/-! ## Byte scanner and node decoding (`src/utils.rs`, `src/tree.rs`)

`Scanner` reads big-endian integers and raw byte runs, aborting (panic) on
a read past the end; modelled by `Option`. -/

def readN (n : Nat) (l : List Nat) : Option (List Nat × List Nat) :=
  if n ≤ l.length then some (l.take n, l.drop n) else none

def readU8 (l : List Nat) : Option (Nat × List Nat) :=
  match l with
  | [] => none
  | b :: r => some (b, r)

/-- `u8v_to_u32` (`src/utils.rs`): big-endian decode of 4 bytes. -/
def u32OfBytes (v : List Nat) : Nat :=
  v.getD 0 0 * 2 ^ 24 + v.getD 1 0 * 2 ^ 16 + v.getD 2 0 * 2 ^ 8 + v.getD 3 0

/-- `u8v_to_u64` (`src/utils.rs`): big-endian decode of 8 bytes. -/
def u64OfBytes (v : List Nat) : Nat :=
  v.getD 0 0 * 2 ^ 56 + v.getD 1 0 * 2 ^ 48 + v.getD 2 0 * 2 ^ 40 + v.getD 3 0 * 2 ^ 32 +
    v.getD 4 0 * 2 ^ 24 + v.getD 5 0 * 2 ^ 16 + v.getD 6 0 * 2 ^ 8 + v.getD 7 0

def readU32 (l : List Nat) : Option (Nat × List Nat) :=
  (readN 4 l).map (fun p => (u32OfBytes p.1, p.2))

def readU64 (l : List Nat) : Option (Nat × List Nat) :=
  (readN 8 l).map (fun p => (u64OfBytes p.1, p.2))

/-- A decoded node as handed to the query path: `Node::from_bytes` output
plus the child `(offset, size)` list (`DictNode` in `src/dictionary.rs`).
Index records carry no value, leaf records carry one. -/
structure ParsedNode where
  isLeaf : Bool
  records : List (Key × Option Value)
  kids : List (Nat × Nat)
  deriving DecidableEq

/-- The record-reading loop of `Node::from_bytes` (`src/tree.rs` lines
118-131).  `EntryKey::from_bytes` unwraps `String::from_utf8`, so an
invalid-UTF-8 key aborts (`none`). -/
def parseRecs (isLeaf : Bool) : Nat → List Nat → Option (List (Key × Option Value) × List Nat)
  | 0, l => some ([], l)
  | n + 1, l => do
    let (klen, l) ← readU32 l
    let (kb, l) ← readN klen l
    if utf8Valid kb then
      if isLeaf then
        let (vlen, l) ← readU32 l
        let (vb, l) ← readN vlen l
        let (rest, l) ← parseRecs isLeaf n l
        some ((kb, some vb) :: rest, l)
      else
        let (rest, l) ← parseRecs isLeaf n l
        some ((kb, none) :: rest, l)
    else none

/-- The child-pointer loop of `Node::from_bytes` (`src/tree.rs` lines
134-140). -/
def parsePtrs : Nat → List Nat → Option (List (Nat × Nat) × List Nat)
  | 0, l => some ([], l)
  | n + 1, l => do
    let (off, l) ← readU64 l
    let (sz, l) ← readU32 l
    let (rest, l) ← parsePtrs n l
    some ((off, sz) :: rest, l)

/-- `Node::from_bytes` (`src/tree.rs` lines 113-142): kind byte (0 = leaf),
record count, records, then 1 (leaf) or count+1 (index) child pointers.
Trailing bytes are ignored, as in the source. -/
def nodeFromBytes (data : List Nat) : Option ParsedNode := do
  let (b, l) ← readU8 data
  let isLeaf := b == 0
  let (recNum, l) ← readU32 l
  let (recs, l) ← parseRecs isLeaf recNum l
  let (kids, _) ← parsePtrs (if isLeaf then 1 else recNum + 1) l
  some { isLeaf := isLeaf, records := recs, kids := kids }

/-! ## `DictFile::get_node` and the paged searches (`src/dictionary.rs`) -/

/-- `DictFile::get_node` (`src/dictionary.rs` lines 104-139).  `cacheGet`
is the result of the cache lookup, `readAt` the result of seek+read
(`none` on an I/O error), `inflate` the Deflate decoder.  Seek and read
failures return absent (`.ok none`); a decode failure hits
`decode.read_to_end(..).unwrap()` and a malformed buffer hits the panics
inside `Node::from_bytes`, both modelled by `.error ()`. -/
def getNode (cacheGet : Option ParsedNode) (readAt : Option (List Nat))
    (inflate : List Nat → Option (List Nat)) : Except Unit (Option ParsedNode) :=
  match cacheGet with
  | some n => .ok (some n)
  | none =>
    match readAt with
    | none => .ok none
    | some buf =>
      match inflate buf with
      | none => .error ()
      | some data =>
        match nodeFromBytes data with
        | none => .error ()
        | some pn => .ok (some pn)

/-- Reading `sz` bytes at `off` from an in-memory image of the file;
`none` models a failed `read_exact` past the end. -/
def readSeg (file : List Nat) (off sz : Nat) : Option (List Nat) :=
  if off + sz ≤ file.length then some ((file.drop off).take sz) else none

/-- `get_node` against a concrete file image with an empty cache. -/
def fetchFile (inflate : List Nat → Option (List Nat)) (file : List Nat) (p : Nat × Nat) :
    Except Unit (Option ParsedNode) :=
  getNode none (readSeg file p.1 p.2) inflate

def crIsLe (o : Ordering) : Bool :=
  match o with
  | .gt => false
  | _ => true

def crIsGe (o : Ordering) : Bool :=
  match o with
  | .lt => false
  | _ => true

/-- The record scan of `DictFile::search` (`src/dictionary.rs` lines
168-181 and 191-204): push keys whose lower-cased form extends the
lower-cased name (raw-prefix additionally required when `strict`), stop
at the first mismatch (second component `true`) or when the limit is
reached after a push or a strict skip. -/
def scanRecs (name lowerName : Key) (strict : Bool) (lim : Nat)
    (recs : List (Key × Option Value)) (acc : List Key) : List Key × Bool :=
  match recs with
  | [] => (acc, false)
  | (k, _) :: rest =>
    if lowerName.isPrefixOf (smooth k) then
      let acc1 := if (strict && name.isPrefixOf k) || !strict then acc ++ [k] else acc
      if lim ≤ acc1.length then (acc1, true)
      else scanRecs name lowerName strict lim rest acc1
    else (acc, true)

/-- The next-leaf loop of `DictFile::search` (`src/dictionary.rs` lines
184-210): follow the leaf chain while the scan keeps matching; a `(0, _)`
pointer or an absent node ends the search with the accumulated results.
`dn.children[0]` on a node without children aborts (`.error ()`). -/
def chainScan (fetch : Nat × Nat → Except Unit (Option ParsedNode)) (name lowerName : Key)
    (strict : Bool) (lim : Nat) : Nat → List Key → Nat × Nat → Except Unit (List Key)
  | 0, _, _ => .error ()
  | fuel + 1, acc, pp =>
    if pp.1 = 0 then .ok acc
    else
      match fetch pp with
      | .error e => .error e
      | .ok none => .ok acc
      | .ok (some dn) =>
        let p := scanRecs name lowerName strict lim dn.records acc
        if p.2 then .ok p.1
        else
          match dn.kids.head? with
          | none => .error ()
          | some nxt => chainScan fetch name lowerName strict lim fuel p.1 nxt

/-- `DictFile::search` (`src/dictionary.rs` lines 142-220): descend by
`index_of`, scan the leaf from the landing position, then follow the leaf
chain.  The unbounded `loop` is given fuel; exhausted fuel is an abnormal
outcome (`.error ()`), which no terminating run of the source exhibits. -/
def dfSearch (fetch : Nat × Nat → Except Unit (Option ParsedNode)) :
    Nat → Nat × Nat → Key → Bool → Nat → Except Unit (List Key)
  | 0, _, _, _, _ => .error ()
  | fuel + 1, pp, name, strict, lim =>
    match fetch pp with
    | .error e => .error e
    | .ok none => .ok []
    | .ok (some dn) =>
      match indexOf dn.isLeaf (dn.records.map Prod.fst) name with
      | none => .error ()
      | some (wi, cr) =>
        if dn.isLeaf then
          let lowerName := smooth name
          let idx := if crIsLe cr then wi else wi + 1
          let p := scanRecs name lowerName strict lim (dn.records.drop idx) []
          if p.2 then .ok p.1
          else
            match dn.kids.head? with
            | none => .error ()
            | some nxt => chainScan fetch name lowerName strict lim fuel p.1 nxt
        else
          match dn.kids.get? (if crIsLe cr then wi else wi + 1) with
          | none => .error ()
          | some nxtp => dfSearch fetch fuel nxtp name strict lim

/-- The first-leaf scan of `DictFile::search_entry` (`src/dictionary.rs`
lines 246-251): from the landing position to the end of the leaf, return
the value of the first record whose key equals `name` raw; `none` means
the scan fell off the end of the leaf. -/
def entryScanFirst (name : Key) : List (Key × Option Value) → Option (Except Unit (Option Value))
  | [] => none
  | (k, v) :: rest =>
    if k = name then
      some (match v with | some vb => .ok (some vb) | none => .error ())
    else entryScanFirst name rest

/-- The next-leaf scan of `DictFile::search_entry` (`src/dictionary.rs`
lines 263-272): a raw-equal key wins; a key whose lower-cased form differs
from the raw `name` ends the search with absent. -/
def entryScanRest (name : Key) : List (Key × Option Value) → Option (Except Unit (Option Value))
  | [] => none
  | (k, v) :: rest =>
    if k = name then
      some (match v with | some vb => .ok (some vb) | none => .error ())
    else if smooth k ≠ name then some (.ok none)
    else entryScanRest name rest

/-- The next-leaf loop of `DictFile::search_entry` (`src/dictionary.rs`
lines 255-278). -/
def entryChain (fetch : Nat × Nat → Except Unit (Option ParsedNode)) (name : Key) :
    Nat → Nat × Nat → Except Unit (Option Value)
  | 0, _ => .error ()
  | fuel + 1, pp =>
    if pp.1 = 0 then .ok none
    else
      match fetch pp with
      | .error e => .error e
      | .ok none => .ok none
      | .ok (some dn) =>
        match entryScanRest name dn.records with
        | some r => r
        | none =>
          match dn.kids.head? with
          | none => .error ()
          | some nxt => entryChain fetch name fuel nxt

/-- `DictFile::search_entry` (`src/dictionary.rs` lines 223-290). -/
def dfSearchEntry (fetch : Nat × Nat → Except Unit (Option ParsedNode)) :
    Nat → Nat × Nat → Key → Except Unit (Option Value)
  | 0, _, _ => .error ()
  | fuel + 1, pp, name =>
    match fetch pp with
    | .error e => .error e
    | .ok none => .ok none
    | .ok (some dn) =>
      match indexOf dn.isLeaf (dn.records.map Prod.fst) name with
      | none => .error ()
      | some (wi, cr) =>
        if dn.isLeaf then
          if crIsGe cr then
            match entryScanFirst name (dn.records.drop wi) with
            | some r => r
            | none =>
              match dn.kids.head? with
              | none => .error ()
              | some nxt => entryChain fetch name fuel nxt
          else .ok none
        else
          match dn.kids.get? (if crIsLe cr then wi else wi + 1) with
          | none => .error ()
          | some nxtp => dfSearchEntry fetch fuel nxtp name

/-! ## Build-time B+ tree (`src/tree.rs`)

The pointer-linked `Node`/`Tree` is embedded as a pure tree; the
walk-up-and-split loop of `Tree::insert` becomes a recursion that returns
the updated node together with the separator and right sibling produced by
a split, to be inserted into the parent. -/

inductive TNode where
  | leaf (records : List (Key × Value))
  | index (records : List Key) (children : List TNode)

/-- `Record::size` for a leaf record (`src/tree.rs` lines 55-61). -/
def leafRecSize (r : Key × Value) : Nat := r.1.length + 4 + r.2.length + 4

/-- `Record::size` for an index record (no value). -/
def indexRecSize (k : Key) : Nat := k.length + 4

/-- `Node::size` (`src/tree.rs` lines 198-209). -/
def TNode.size : TNode → Nat
  | .leaf recs => 1 + 4 + (recs.map leafRecSize).sum + 12
  | .index recs children => 1 + 4 + (recs.map indexRecSize).sum + 12 * children.length

def TNode.recordsLen : TNode → Nat
  | .leaf recs => recs.length
  | .index recs _ => recs.length

/-- `Vec::insert`: insert at position `n` (in-bounds wherever used). -/
def listInsertAt {α : Type} (n : Nat) (a : α) (l : List α) : List α :=
  l.take n ++ a :: l.drop n

/-- The body of `Tree::insert` below the root-empty check (`src/tree.rs`
lines 368-457): descend to the leaf, insert, then split any node whose
`size()` exceeds its limit, propagating the separator and the new right
node to the parent.  Returns `none` on the aborts of the source
(`index_of` on an empty node, child index out of bounds).  The recursion
into the routed child consumes one unit of fuel; any fuel exceeding the
height of the tree is sufficient, and exhausting it (`none`) is an
embedding artifact. -/
def insertR (limI limL : Nat) (k : Key) (v : Value) :
    Nat → TNode → Option (TNode × Option (Key × TNode))
  | 0, _ => none
  | _ + 1, .leaf recs =>
    match indexOf true (recs.map Prod.fst) k with
    | none => none
    | some (wi, cr) =>
      let pos := if crIsLe cr then wi else wi + 1
      let recs1 := listInsertAt pos (k, v) recs
      if recs1.length > 1 ∧ (TNode.leaf recs1).size > limL then
        let dv := recs1.length / 2
        let sep := smooth (recs1.getD (dv - 1) ([], [])).1
        some (.leaf (recs1.take dv), some (sep, .leaf (recs1.drop dv)))
      else some (.leaf recs1, none)
  | fuel + 1, .index recs children =>
    match indexOf false recs k with
    | none => none
    | some (wi, cr) =>
      let ci := if crIsLe cr then wi else wi + 1
      match children.get? ci with
      | none => none
      | some child =>
        match insertR limI limL k v fuel child with
        | none => none
        | some (c1, none) => some (.index recs (children.set ci c1), none)
        | some (c1, some (sep, newNode)) =>
          let recs1 := listInsertAt ci sep recs
          let children1 := listInsertAt (ci + 1) newNode (children.set ci c1)
          let nd := TNode.index recs1 children1
          if nd.size > limI ∧ recs1.length ≥ 3 then
            let dv := recs1.length / 2 + 1
            let precord := (recs1.take dv).getLast?.getD []
            some (.index (recs1.take (dv - 1)) (children1.take dv),
              some (precord, .index (recs1.drop dv) (children1.drop dv)))
          else some (nd, none)

structure BelTree where
  root : TNode
  indexSizeLimit : Nat
  leafSizeLimit : Nat

/-- `Tree::new` (`src/tree.rs` lines 325-336): a single empty leaf root. -/
def BelTree.new (limI limL : Nat) : BelTree :=
  { root := .leaf [], indexSizeLimit := limI, leafSizeLimit := limL }

/-- `Tree::insert` (`src/tree.rs` lines 362-458).  An empty root receives
the record directly; a split of the root creates a new index root with one
separator and two children.  (An index root with no records cannot arise;
the source would corrupt it, modelled as an abort.) -/
def BelTree.insert (t : BelTree) (fuel : Nat) (k : Key) (v : Value) : Option BelTree :=
  if t.root.recordsLen = 0 then
    match t.root with
    | .leaf recs => some { t with root := .leaf (recs ++ [(k, v)]) }
    | .index _ _ => none
  else
    match insertR t.indexSizeLimit t.leafSizeLimit k v fuel t.root with
    | none => none
    | some (n, none) => some { t with root := n }
    | some (n, some (sep, rn)) => some { t with root := .index [sep] [n, rn] }

/-- Insert a list of pairs in order, starting from an empty tree; every
insertion gets the same fuel. -/
def buildTree (fuel limI limL : Nat) (ps : List (Key × Value)) : Option BelTree :=
  ps.foldl (fun ot p => ot.bind fun t => t.insert fuel p.1 p.2) (some (BelTree.new limI limL))

/-! ## Serialization (`Tree::write_to`, `src/tree.rs` lines 460-529)

Nodes are emitted in right-to-left post-order: for an index node all
children, rightmost subtree first, then the node itself.  Each leaf embeds
the (offset, size) of the leaf written just before it (its right
neighbour); the first-written (rightmost) leaf embeds `(0, 0)`. -/

/-- `u32_to_u8v` (`src/utils.rs`), including the `as u32` truncation. -/
def u32Bytes (n : Nat) : List Nat :=
  [n / 2 ^ 24 % 256, n / 2 ^ 16 % 256, n / 2 ^ 8 % 256, n % 256]

/-- `u64_to_u8v` (`src/utils.rs`). -/
def u64Bytes (n : Nat) : List Nat :=
  [n / 2 ^ 56 % 256, n / 2 ^ 48 % 256, n / 2 ^ 40 % 256, n / 2 ^ 32 % 256,
    n / 2 ^ 24 % 256, n / 2 ^ 16 % 256, n / 2 ^ 8 % 256, n % 256]

/-- `Record::bytes` for a leaf record (`src/tree.rs` lines 63-76). -/
def leafRecBytes (r : Key × Value) : List Nat :=
  u32Bytes r.1.length ++ r.1 ++ u32Bytes r.2.length ++ r.2

/-- `Record::bytes` for an index record. -/
def indexRecBytes (k : Key) : List Nat := u32Bytes k.length ++ k

/-- Emission of one subtree by `Tree::write_to`, starting at file offset
`off` with `ll` the (offset, size) of the last leaf written so far.
Returns the emitted bytes, this node's (offset, compressed size) and the
updated last-leaf pointer.  `none` models the `panic!` of `Node::bytes` on
2^32 or more records; running out of fuel (one unit per tree level) is an
embedding artifact.  The children of an index node are emitted rightmost
subtree first (the fold processes the tail of the child list before its
head), then the node itself; the returned pointer list is in child
order. -/
def writeNode (compress : List Nat → List Nat) :
    Nat → TNode → Nat → Nat × Nat → Option (List Nat × (Nat × Nat) × (Nat × Nat))
  | 0, _, _, _ => none
  | _ + 1, .leaf recs, off, ll =>
    if recs.length + 1 > 2 ^ 32 then none
    else
      let body := 0 :: (u32Bytes recs.length ++ (recs.map leafRecBytes).flatten ++
        u64Bytes ll.1 ++ u32Bytes ll.2)
      let buf := compress body
      some (buf, (off, buf.length), (off, buf.length))
  | fuel + 1, .index recs children, off, ll =>
    if recs.length + 1 > 2 ^ 32 then none
    else
      let step := fun (c : TNode) (acc : Option (List Nat × List (Nat × Nat) × (Nat × Nat))) =>
        match acc with
        | none => none
        | some (bR, psR, llR) =>
          match writeNode compress fuel c (off + bR.length) llR with
          | none => none
          | some (bC, pC, llC) => some (bR ++ bC, pC :: psR, llC)
      match children.foldr step (some ([], [], ll)) with
      | none => none
      | some (cbytes, cptrs, ll1) =>
        let body := 1 :: (u32Bytes recs.length ++ (recs.map indexRecBytes).flatten ++
          (cptrs.map (fun p => u64Bytes p.1 ++ u32Bytes p.2)).flatten)
        let buf := compress body
        some (cbytes ++ buf, (off + cbytes.length, buf.length), ll1)

/-- `Tree::write_to` (`src/tree.rs` lines 460-529): an empty tree emits
nothing and reports the root as `(0, 0)`; otherwise the root subtree is
emitted at `off` and the root's (offset, compressed size) returned. -/
def BelTree.writeTo (compress : List Nat → List Nat) (t : BelTree) (fuel : Nat) (off : Nat) :
    Option (List Nat × (Nat × Nat)) :=
  if t.root.recordsLen = 0 then some ([], (0, 0))
  else
    match writeNode compress fuel t.root off (0, 0) with
    | none => none
    | some (bytes, rootPtr, _) => some (bytes, rootPtr)

/-! ## Parse-from-file (`parse_node` / `Tree::from_file`, `src/tree.rs`) -/

def liftValues : List (Key × Option Value) → Option (List (Key × Value))
  | [] => some []
  | (k, some v) :: rest => (liftValues rest).map (fun l => (k, v) :: l)
  | (_, none) :: _ => none

/-- `parse_node` (`src/tree.rs` lines 265-307): read, inflate, decode, and
recurse into children until the first zero-size pointer, collecting leaf
record lists in visit order (the `leaves` accumulator of the source).  A
zero size yields an empty leaf which is not pushed onto `leaves`.  The
unbounded recursion over file offsets is given fuel, one unit per tree
level; once a zero-size child pointer is seen the remaining children are
skipped (the `break` of the source). -/
def parseNode (inflate : List Nat → Option (List Nat)) (file : List Nat) :
    Nat → Nat → Nat → Option (TNode × List (List (Key × Value)))
  | 0, _, _ => none
  | fuel + 1, off, sz =>
    if sz = 0 then some (.leaf [], [])
    else
      match readSeg file off sz with
      | none => none
      | some bytes =>
        match inflate bytes with
        | none => none
        | some data =>
          match nodeFromBytes data with
          | none => none
          | some pn =>
            if pn.isLeaf then
              match liftValues pn.records with
              | none => none
              | some recs => some (.leaf recs, [recs])
            else
              let step := fun (acc : Option (List TNode × List (List (Key × Value)) × Bool))
                  (p : Nat × Nat) =>
                match acc with
                | none => none
                | some (cs, lvs, stopped) =>
                  if stopped then some (cs, lvs, stopped)
                  else if p.2 = 0 then some (cs, lvs, true)
                  else
                    match parseNode inflate file fuel p.1 p.2 with
                    | none => none
                    | some (c, lv) => some (cs ++ [c], lvs ++ lv, false)
              match pn.kids.foldl step (some ([], [], false)) with
              | none => none
              | some (children, leaves, _) =>
                some (.index (pn.records.map Prod.fst) children, leaves)

/-- `Tree::traverse` on a reparsed tree (`src/tree.rs` lines 540-549):
every record of every leaf in the order the leaves were collected. -/
def traverseList (leaves : List (List (Key × Value))) : List (Key × Value) := leaves.flatten

/-- The full pipeline of claim C3: build by repeated `Tree::insert`,
persist with `Tree::write_to` after `pad` header bytes, reparse with
`Tree::from_file`, and return what `Tree::traverse` yields on the reparsed
tree.  One fuel serves all three phases; any fuel above the height of the
tree suffices. -/
def roundTrip (compress : List Nat → List Nat) (inflate : List Nat → Option (List Nat))
    (fuel limI limL : Nat) (pad : List Nat) (ps : List (Key × Value)) :
    Option (List (Key × Value)) :=
  match buildTree fuel limI limL ps with
  | none => none
  | some t =>
    match t.writeTo compress fuel pad.length with
    | none => none
    | some (bytes, rootPtr) =>
      match parseNode inflate (pad ++ bytes) fuel rootPtr.1 rootPtr.2 with
      | none => none
      | some (_, leaves) => some (traverseList leaves)

mutual
/-- In-order concatenation of all leaf records of a build-time tree (what
the leaves hold, left to right). -/
def flattenT : TNode → List (Key × Value)
  | .leaf recs => recs
  | .index _ children => flattenK children

/-- In-order concatenation over a child list. -/
def flattenK : List TNode → List (Key × Value)
  | [] => []
  | c :: rest => flattenT c ++ flattenK rest
end

mutual
/-- Height of a build-time tree (leaves have height 1); used to state that
the fuels given to the embedded recursions suffice. -/
def TNode.height : TNode → Nat
  | .leaf _ => 1
  | .index _ children => 1 + heightK children

def heightK : List TNode → Nat
  | [] => 0
  | c :: rest => max (TNode.height c) (heightK rest)
end

/-! ## Well-formedness of build-time trees

`WF lo hi t` says: the smoothed keys of `t` lie between the optional
bounds `lo` and `hi`, each leaf is non-empty and sorted (non-strictly) by
smoothed key, each index node has one more child than records and its
separators partition the children, and all keys are serialisable (valid
UTF-8, length below 2^32).  This is the invariant `Tree::insert`
maintains and `Tree::write_to`/`parse_node` rely on. -/

/-- `b ≤ x` for an optional lower bound. -/
def loB (lo : Option Key) (x : Key) : Prop :=
  match lo with
  | none => True
  | some b => cmpK b x ≠ .gt

/-- `x ≤ b` for an optional upper bound. -/
def hiB (hi : Option Key) (x : Key) : Prop :=
  match hi with
  | none => True
  | some b => cmpK x b ≠ .gt

/-- A key the serializer and parser round-trip: valid UTF-8
(`EntryKey::from_bytes` unwraps `String::from_utf8`) and length below the
`u32` range. -/
def goodKey (k : Key) : Prop := utf8Valid k = true ∧ k.length < 2 ^ 32

def goodVal (v : Value) : Prop := v.length < 2 ^ 32

/-- Non-strict record order by smoothed key. -/
def leSm (a b : Key × Value) : Prop := cmpK (smooth a.1) (smooth b.1) ≠ .gt

/-- A list is non-strictly sorted under the key view `f`, stated by
index. -/
def sortedIdx {α : Type} (f : α → Key) (d : α) (l : List α) : Prop :=
  ∀ j, j < l.length → ∀ i, i < j → cmpK (f (l.getD i d)) (f (l.getD j d)) ≠ .gt

/-- The lower bound that applies to child `i` of an index node: the
separator to its left, or the node's own lower bound for the first
child. -/
def sepLo (lo : Option Key) (recs : List Key) (i : Nat) : Option Key :=
  if i = 0 then lo else some (recs.getD (i - 1) [])

/-- The upper bound that applies to child `i`: the separator at `i`, or
the node's own upper bound for the last child. -/
def sepHi (hi : Option Key) (recs : List Key) (i : Nat) : Option Key :=
  if i = recs.length then hi else some (recs.getD i [])

inductive WF : Option Key → Option Key → TNode → Prop where
  | leaf : ∀ (lo hi : Option Key) (recs : List (Key × Value)),
      recs ≠ [] →
      sortedIdx (fun r => smooth r.1) ([], []) recs →
      (∀ r ∈ recs, loB lo (smooth r.1) ∧ hiB hi (smooth r.1)) →
      (∀ r ∈ recs, goodKey r.1 ∧ goodVal r.2) →
      WF lo hi (.leaf recs)
  | index : ∀ (lo hi : Option Key) (recs : List Key) (children : List TNode),
      recs ≠ [] →
      children.length = recs.length + 1 →
      (∀ s ∈ recs, goodKey s) →
      (∀ s ∈ recs, loB lo s ∧ hiB hi s) →
      sortedIdx id [] recs →
      (∀ i, i < children.length →
        WF (sepLo lo recs i) (sepHi hi recs i) (children.getD i (.leaf []))) →
      WF lo hi (.index recs children)

/-- The record key against which `index_of` compares at position `i`:
smoothed in a leaf, as stored in an index node. -/
def rKey (leaf : Bool) (recs : List Key) (i : Nat) : Key :=
  if leaf then smooth (recs.getD i []) else recs.getD i []

/-- The records of a node sorted non-strictly under the comparison
`index_of` applies to them. -/
def sortedR (leaf : Bool) (recs : List Key) : Prop :=
  ∀ j, j < recs.length → ∀ i, i < j → cmpK (rKey leaf recs i) (rKey leaf recs j) ≠ .gt

/-! ## Concrete scenario used by claims C1 and C4

Three case-variants of the same word, inserted in the order that leaves
the raw-matching variant in front of the binary-search landing point. -/

def kApplE : Key := [97, 112, 112, 108, 69]

def kapple : Key := [97, 112, 112, 108, 101]

def kApple : Key := [65, 112, 112, 108, 101]

def applePairs : List (Key × Value) := [(kApplE, [49]), (kapple, [50]), (kApple, [51])]

/-- The persisted dictionary of the scenario: the tree built from
`applePairs`, written after a 6-byte header, with the identity as the
Deflate codec. -/
def appleFile : Option (List Nat × (Nat × Nat)) :=
  (buildTree 10 100000 100000 applePairs).bind fun t => t.writeTo id 10 6

/-- A fetch that reports every node absent (every read fails). -/
def fetchNone : Nat × Nat → Except Unit (Option ParsedNode) := fun _ => .ok none

/-- A fetch that returns a decoded leaf with no records for every pointer. -/
def fetchEmptyRecs : Nat × Nat → Except Unit (Option ParsedNode) :=
  fun _ => .ok (some { isLeaf := true, records := [], kids := [(0, 0)] })

mutual
/-- The leaf record lists of a build-time tree in left-to-right order:
what `parse_node` accumulates into `leaves` when reparsing it. -/
def leavesOf : TNode → List (List (Key × Value))
  | .leaf recs => [recs]
  | .index _ children => leavesOfK children

def leavesOfK : List TNode → List (List (Key × Value))
  | [] => []
  | c :: rest => leavesOf c ++ leavesOfK rest
end

/-- `bs` occupies the byte range `[off, off + bs.length)` of `file`. -/
def SegEq (file : List Nat) (off : Nat) (bs : List Nat) : Prop :=
  off + bs.length ≤ file.length ∧ (file.drop off).take bs.length = bs

/-- A concrete entry store holding the chain k0 → k1 → k2 → value. -/
def chainStore : Key → Except Unit (Option Value) := fun k =>
  if k = [107] then .ok (some (REDIRECT ++ [108]))
  else if k = [108] then .ok (some (REDIRECT ++ [109]))
  else if k = [109] then .ok (some [118, 97, 108])
  else .ok none

/-- A concrete entry store whose chain needs a fourth lookup. -/
def chainStore4 : Key → Except Unit (Option Value) := fun k =>
  if k = [107] then .ok (some (REDIRECT ++ [108]))
  else if k = [108] then .ok (some (REDIRECT ++ [109]))
  else if k = [109] then .ok (some (REDIRECT ++ [110]))
  else .ok (some [118])

/-! ## Theorems -/

/-- Auxiliary: the binary-search loop always terminates within its fuel on
a non-degenerate interval and returns an index inside the interval paired
with the comparison performed at that index. -/
theorem iofLoop_spec1 (leaf : Bool) (recs : List Key) (skey : Key) :
    ∀ fuel li hi, li ≤ hi → hi - li < fuel →
      ∃ i, li ≤ i ∧ i ≤ hi ∧
        iofLoop leaf recs skey fuel li hi = some (i, cmpAt leaf recs skey i) := by
  intro fuel
  induction fuel with
  | zero => intro li hi h1 h2; omega
  | succ n ih =>
    intro li hi hle hf
    by_cases h1 : hi = li
    · refine ⟨hi, by omega, le_refl _, ?_⟩
      have hmi : (li + li) / 2 = li := by omega
      simp [iofLoop, h1, hmi]
    · by_cases h2 : hi - li = 1
      · have hmi : (hi + li) / 2 = li := by omega
        by_cases h3 : cmpAt leaf recs skey ((hi + li) / 2) = Ordering.gt
        · rw [hmi] at h3
          exact ⟨hi, by omega, le_refl _, by simp [iofLoop, h1, h2, hmi, h3]⟩
        · rw [hmi] at h3
          exact ⟨li, le_refl _, by omega, by simp [iofLoop, h1, h2, hmi, h3]⟩
      · have hmi1 : li ≤ (hi + li) / 2 := by omega
        have hmi2 : (hi + li) / 2 < hi := by omega
        have hmi3 : li < (hi + li) / 2 := by omega
        by_cases h3 : cmpAt leaf recs skey ((hi + li) / 2) = Ordering.lt
        · obtain ⟨i, hi1, hi2, hi3⟩ := ih li ((hi + li) / 2) hmi1 (by omega)
          exact ⟨i, hi1, by omega, by simp [iofLoop, h1, h2, h3]; exact hi3⟩
        · by_cases h4 : cmpAt leaf recs skey ((hi + li) / 2) = Ordering.gt
          · obtain ⟨i, hi1, hi2, hi3⟩ := ih ((hi + li) / 2) hi (by omega) (by omega)
            exact ⟨i, by omega, hi2, by simp [iofLoop, h1, h2, h3, h4]; exact hi3⟩
          · exact ⟨(hi + li) / 2, hmi1, by omega, by simp [iofLoop, h1, h2, h3, h4]⟩

/-- Claim C2 (code_bug evaluation): `LruCache::put` never adds the charged
size of a new entry to `self.len`, so `shrink` compares `0 > cap` and
never evicts.  After a single `put` of an entry of charged size 5 into a
cache of capacity 0 the entry stays resident (total charged size 5 > 0),
`len` still reads 0, and even an explicit `resize 0` evicts nothing. -/
theorem c2_cache_budget_violated :
    ((LruCache.new Nat Nat 0).put (fun v => v) 1 5).1.residentSize = 5 ∧
      ((LruCache.new Nat Nat 0).put (fun v => v) 1 5).1.cap = 0 ∧
      ((LruCache.new Nat Nat 0).put (fun v => v) 1 5).1.len = 0 ∧
      ((((LruCache.new Nat Nat 0).put (fun v => v) 1 5).1.resize 0).residentSize = 5) :=
  ⟨rfl, rfl, rfl, rfl⟩

/-- Claim C5 (counterexample): in an index node `index_of` does not compare
the raw (unsmoothed) search key against the stored record key: for search
key `A` (byte 65) and stored record key `B` (byte 66) the raw comparison
is `lt`, yet `index_of` returns `gt`, because line 147 of `src/tree.rs`
smooths the search key to `a` (byte 97) before any comparison. -/
theorem c5_counterexample :
    indexOf false [[66]] [65] = some (0, Ordering.gt) ∧ cmpK [65] [66] = Ordering.lt :=
  ⟨rfl, rfl⟩

/-- Claim C5 (amended): `index_of` always smooths the search key first; a
leaf comparison also smooths the stored record key, an index-node
comparison uses the stored record key as stored.  The returned ordering is
exactly that comparison at the returned index. -/
theorem c5_index_of_comparison (leaf : Bool) (recs : List Key) (key : Key) (h : recs ≠ []) :
    ∃ i, i < recs.length ∧
      indexOf leaf recs key =
        some (i, cmpK (smooth key) (if leaf then smooth (recs.getD i []) else recs.getD i [])) := by
  have hlen : 0 < recs.length := List.length_pos.mpr h
  obtain ⟨i, h1, h2, h3⟩ :=
    iofLoop_spec1 leaf recs (smooth key) recs.length 0 (recs.length - 1) (by omega) (by omega)
  refine ⟨i, by omega, ?_⟩
  have : indexOf leaf recs key = iofLoop leaf recs (smooth key) recs.length 0 (recs.length - 1) := by
    simp [indexOf, Nat.pos_iff_ne_zero.mp hlen]
  rw [this, h3]
  cases leaf <;> simp [cmpAt]

/-- Witness for the amended C5 theorem at a concrete index node. -/
theorem c5_index_of_comparison_witness :
    ([[66]] : List Key) ≠ [] ∧
      ∃ i, i < ([[66]] : List Key).length ∧
        indexOf false [[66]] [65] =
          some (i, cmpK (smooth [65]) (if false then smooth ([[66]].getD i []) else [[66]].getD i [])) :=
  ⟨by decide, c5_index_of_comparison false [[66]] [65] (by decide)⟩

/-- Claim C6 (code_bug evaluation): on a leaf whose three records all have
smoothed key `a` (byte 97), `index_of` for search key `a` returns index 1,
the middle of the run of equal records, although the record at index 0
also compares equal — the returned index is not the smallest index among
the consecutive equal records. -/
theorem c6_index_of_not_least_equal :
    indexOf true [[97], [97], [97]] [97] = some (1, Ordering.eq) ∧
      cmpAt true [[97], [97], [97]] (smooth [97]) 0 = Ordering.eq :=
  ⟨rfl, rfl⟩

/-- Claim C1 (code_bug evaluation): the dictionary persisted from inserting
the three case-variants `applE`, `apple`, `Apple` (in that order) stores
the raw key `Apple` with value `[51]`, yet `Dictionary::search_entry`
for the exact key `Apple` returns absent: the leaf scan starts at the
binary-search landing index 1 and never looks at the raw match at index 0. -/
theorem c1_search_entry_misses_raw_match :
    (kApple, ([51] : Value)) ∈ applePairs ∧
      appleFile.map (fun w =>
        dictionarySearchEntry
          (fun kw => dfSearchEntry (fetchFile some (([0, 0, 0, 0, 0, 0] : List Nat) ++ w.1)) 10 w.2 kw)
          kApple) = some (Except.ok none) :=
  ⟨by decide, rfl⟩

/-- Claim C4 (code_bug evaluation): on the same persisted dictionary,
`search("apple", strict=false, limit=3)` returns only 2 of the 3 inserted
keys whose lower-cased form extends the lower-cased prefix: the inserted
key `Apple` matches the predicate but sits before the binary-search
landing index and is skipped. -/
theorem c4_prefix_search_incomplete :
    appleFile.map (fun w =>
      dfSearch (fetchFile some (([0, 0, 0, 0, 0, 0] : List Nat) ++ w.1)) 10 w.2 kapple false 3) =
        some (Except.ok [kapple, kApplE]) ∧
      (smooth kapple).isPrefixOf (smooth kApple) = true ∧
      (kApple, ([51] : Value)) ∈ applePairs :=
  ⟨rfl, rfl, by decide⟩

/-- Claim C9 (counterexample): a Deflate decode failure inside
`DictFile::get_node` does not return absent — the source unwraps the
decoder result (`src/dictionary.rs` line 125), which aborts, modelled by
`.error ()`. -/
theorem c9_counterexample :
    getNode none (some [1]) (fun _ => none) = Except.error () ∧
      (Except.error () : Except Unit (Option ParsedNode)) ≠ Except.ok none :=
  ⟨rfl, by simp⟩

/-- Claim C8 (counterexample): with leaf limit 30 and index limit 100,
inserting two records of 20 value bytes each yields, after the
insertion-plus-split sequence completes, a root with two non-root leaf
children that each encode to 46 > 30 bytes: a split halves the record
count, not the encoded size, and the halves are never re-examined. -/
theorem c8_counterexample :
    buildTree 10 100 30 [([97], List.replicate 20 0), ([98], List.replicate 20 0)] =
      some ⟨TNode.index [[97]]
        [.leaf [([97], List.replicate 20 0)], .leaf [([98], List.replicate 20 0)]], 100, 30⟩ ∧
      (TNode.leaf [([97], List.replicate 20 0)]).size = 46 ∧
      (TNode.leaf [([98], List.replicate 20 0)]).size = 46 ∧ 30 < 46 :=
  ⟨rfl, rfl, rfl, by decide⟩

/-- Claim C8 (amended): the split loop of `Tree::insert` stops only at a
node that either fits its size limit or can no longer be split (a leaf
with at most 1 record, an index node with fewer than 3 records): a leaf
left unsplit satisfies that disjunction, and an index node whose routed
child did split but which itself returns unsplit satisfies it too.  Split
halves are not re-examined, so other nodes may exceed their limit, as
`c8_counterexample` shows. -/
theorem c8_split_loop_stops_only_when_fit :
    (∀ limI limL k v fuel recs n,
      insertR limI limL k v (fuel + 1) (TNode.leaf recs) = some (n, none) →
      TNode.size n ≤ limL ∨ n.recordsLen ≤ 1) ∧
    (∀ limI limL k v fuel recs children wi cr child c1 sep rn n,
      indexOf false recs k = some (wi, cr) →
      children.get? (if crIsLe cr then wi else wi + 1) = some child →
      insertR limI limL k v fuel child = some (c1, some (sep, rn)) →
      insertR limI limL k v (fuel + 1) (TNode.index recs children) = some (n, none) →
      TNode.size n ≤ limI ∨ n.recordsLen < 3) := by
  constructor
  · intro limI limL k v fuel recs n h
    simp only [insertR] at h
    cases hio : indexOf true (recs.map Prod.fst) k with
    | none => rw [hio] at h; simp at h
    | some p =>
      rw [hio] at h
      obtain ⟨wi, cr⟩ := p
      simp only at h
      set recs1 := listInsertAt (if crIsLe cr = true then wi else wi + 1) (k, v) recs with hr1
      split at h
      · simp at h
      · rename_i hguard
        simp only [Option.some.injEq, Prod.mk.injEq] at h
        obtain ⟨hn, -⟩ := h
        rw [← hn]
        rw [not_and_or] at hguard
        rcases hguard with hg | hg
        · right
          simp only [TNode.recordsLen]
          omega
        · left; omega
  · intro limI limL k v fuel recs children wi cr child c1 sep rn n hio hget hchild h
    simp only [insertR] at h
    rw [hio] at h
    simp only at h
    rw [hget] at h
    simp only at h
    rw [hchild] at h
    simp only at h
    set ci := if crIsLe cr = true then wi else wi + 1 with hci
    set recs1 := listInsertAt ci sep recs with hr1
    split at h
    · simp at h
    · rename_i hguard
      simp only [Option.some.injEq, Prod.mk.injEq] at h
      obtain ⟨hn, -⟩ := h
      rw [← hn]
      rw [not_and_or] at hguard
      rcases hguard with hg | hg
      · left; omega
      · right
        simp only [TNode.recordsLen]
        omega

/-- Witness for the amended C8 theorem: a leaf insertion that fits, and an
index node whose child splits while the index node itself fits. -/
theorem c8_split_loop_stops_only_when_fit_witness :
    (insertR 100 100 [97] [1] 1 (TNode.leaf [([98], [5])]) =
        some (TNode.leaf [([97], [1]), ([98], [5])], none) ∧
      (TNode.size (TNode.leaf [([97], [1]), ([98], [5])]) ≤ 100 ∨
        (TNode.leaf [([97], [1]), ([98], [5])]).recordsLen ≤ 1)) ∧
    (TNode.size (TNode.index [[97], [98]]
        [.leaf [([97], [50])], .leaf [([97], [5])], .leaf [([99], [6])]]) ≤ 100 ∨
      (TNode.index [[97], [98]]
        [.leaf [([97], [50])], .leaf [([97], [5])], .leaf [([99], [6])]]).recordsLen < 3) :=
  ⟨⟨rfl, c8_split_loop_stops_only_when_fit.1 100 100 [97] [1] 0 [([98], [5])]
      (TNode.leaf [([97], [1]), ([98], [5])]) rfl⟩,
    c8_split_loop_stops_only_when_fit.2 100 30 [97] [50] 1 [[98]]
      [.leaf [([97], [5])], .leaf [([99], [6])]] 0 Ordering.lt (.leaf [([97], [5])])
      (.leaf [([97], [50])]) [97] (.leaf [([97], [5])])
      (TNode.index [[97], [98]] [.leaf [([97], [50])], .leaf [([97], [5])], .leaf [([99], [6])]])
      rfl rfl rfl rfl⟩

/-- Claim C9 (amended): a seek or read failure inside `get_node` returns
absent to the caller, and an absent node ends the enclosing search
normally with exactly the results accumulated so far — when descending
(nothing yet), when following the leaf chain of `search`, and when
following the leaf chain of `search_entry`.  Decode failures instead abort
(see `c9_counterexample`). -/
theorem c9_io_failures_return_absent :
    (∀ inflate, getNode none none inflate = Except.ok none) ∧
    (∀ (fetch : Nat × Nat → Except Unit (Option ParsedNode)) name lowerName strict lim fuel acc pp,
      pp.1 ≠ 0 → fetch pp = .ok none →
      chainScan fetch name lowerName strict lim (fuel + 1) acc pp = .ok acc) ∧
    (∀ (fetch : Nat × Nat → Except Unit (Option ParsedNode)) fuel pp name strict lim,
      fetch pp = .ok none → dfSearch fetch (fuel + 1) pp name strict lim = .ok []) ∧
    (∀ (fetch : Nat × Nat → Except Unit (Option ParsedNode)) name fuel pp,
      pp.1 ≠ 0 → fetch pp = .ok none → entryChain fetch name (fuel + 1) pp = .ok none) := by
  refine ⟨fun _ => rfl, ?_, ?_, ?_⟩
  · intro fetch name lowerName strict lim fuel acc pp h0 hf
    simp [chainScan, h0, hf]
  · intro fetch fuel pp name strict lim hf
    simp [dfSearch, hf]
  · intro fetch name fuel pp h0 hf
    simp [entryChain, h0, hf]

/-- Witness for the amended C9 theorem at concrete inputs. -/
theorem c9_io_failures_return_absent_witness :
    getNode none none (fun b => some b) = Except.ok none ∧
      chainScan fetchNone [97] [97] false 5 1 [[98]] (3, 4) = .ok [[98]] ∧
      dfSearch fetchNone 1 (3, 4) [97] false 5 = .ok [] ∧
      entryChain fetchNone [97] 1 (3, 4) = .ok none :=
  ⟨c9_io_failures_return_absent.1 (fun b => some b),
    c9_io_failures_return_absent.2.1 fetchNone [97] [97] false 5 0 [[98]] (3, 4)
      (by decide) rfl,
    c9_io_failures_return_absent.2.2.1 fetchNone 0 (3, 4) [97] false 5 rfl,
    c9_io_failures_return_absent.2.2.2 fetchNone [97] 0 (3, 4) (by decide) rfl⟩

/-- Claim C10: `index_of` aborts on every node with an empty record list
(the initial upper bound underflows) and succeeds on every non-empty one;
consequently a search that reaches a decoded node with no records aborts
rather than returning — for `DictFile::search`, `DictFile::search_entry`
and the descent of `Tree::insert` alike. -/
theorem c10_index_of_partial_on_empty :
    (∀ leaf k, indexOf leaf ([] : List Key) k = none) ∧
    (∀ leaf recs k, recs ≠ ([] : List Key) → (indexOf leaf recs k).isSome = true) ∧
    (∀ (fetch : Nat × Nat → Except Unit (Option ParsedNode)) fuel pp name strict lim dn,
      fetch pp = .ok (some dn) → dn.records = [] →
      dfSearch fetch (fuel + 1) pp name strict lim = .error ()) ∧
    (∀ (fetch : Nat × Nat → Except Unit (Option ParsedNode)) fuel pp name dn,
      fetch pp = .ok (some dn) → dn.records = [] →
      dfSearchEntry fetch (fuel + 1) pp name = .error ()) ∧
    (∀ limI limL k v fuel, insertR limI limL k v (fuel + 1) (TNode.leaf []) = none) := by
  refine ⟨fun leaf k => rfl, ?_, ?_, ?_, fun limI limL k v fuel => rfl⟩
  · intro leaf recs k h
    have hlen : 0 < recs.length := List.length_pos.mpr h
    obtain ⟨i, -, -, h3⟩ :=
      iofLoop_spec1 leaf recs (smooth k) recs.length 0 (recs.length - 1) (by omega) (by omega)
    simp [indexOf, Nat.pos_iff_ne_zero.mp hlen, h3]
  · intro fetch fuel pp name strict lim dn hf hrecs
    simp [dfSearch, hf, hrecs, indexOf]
  · intro fetch fuel pp name dn hf hrecs
    simp [dfSearchEntry, hf, hrecs, indexOf]

/-- Witness for C10 at concrete inputs. -/
theorem c10_index_of_partial_on_empty_witness :
    indexOf true ([] : List Key) [97] = none ∧
      (indexOf true [[97]] [97]).isSome = true ∧
      dfSearch fetchEmptyRecs 1 (5, 5) [97] false 1 = .error () ∧
      dfSearchEntry fetchEmptyRecs 1 (5, 5) [97] = .error () ∧
      insertR 10 10 [97] [1] 1 (TNode.leaf []) = none :=
  ⟨c10_index_of_partial_on_empty.1 true [97],
    c10_index_of_partial_on_empty.2.1 true [[97]] [97] (by decide),
    c10_index_of_partial_on_empty.2.2.1 fetchEmptyRecs 0 (5, 5) [97] false 1
      { isLeaf := true, records := [], kids := [(0, 0)] } rfl rfl,
    c10_index_of_partial_on_empty.2.2.2.1 fetchEmptyRecs 0 (5, 5) [97]
      { isLeaf := true, records := [], kids := [(0, 0)] } rfl rfl,
    c10_index_of_partial_on_empty.2.2.2.2 10 10 [97] [1] 0⟩

/-- Auxiliary: a list is a `isPrefixOf` of itself followed by anything. -/
theorem isPrefixOf_append_self (l k : List Nat) : l.isPrefixOf (l ++ k) = true := by
  rw [List.isPrefixOf_iff_prefix]
  exact List.prefix_append l k

/-- Auxiliary: one redirect step of `Dictionary::search_entry`: a hit whose
trimmed value is `@@@LINK=` followed by the next key replaces the keyword
and consumes one of the three iterations. -/
theorem dictSearchEntry_redirect (lookup : Key → Except Unit (Option Value)) (fuel : Nat)
    (kw k1 : Key) (v : Value) (h : lookup kw = .ok (some v)) (hu : utf8Valid v = true)
    (ht : trimBytes v = REDIRECT ++ k1) :
    dictSearchEntry lookup (fuel + 1) kw = dictSearchEntry lookup fuel k1 := by
  have hp : REDIRECT.isPrefixOf (trimBytes v) = true := by
    rw [ht]; exact isPrefixOf_append_self _ _
  have hd : (trimBytes v).drop REDIRECT.length = k1 := by
    rw [ht]; exact List.drop_left _ _
  simp [dictSearchEntry, h, hu, hp, hd]

/-- Auxiliary: a hit whose trimmed value does not start with `@@@LINK=`
ends `Dictionary::search_entry` with the undecoded content. -/
theorem dictSearchEntry_final (lookup : Key → Except Unit (Option Value)) (fuel : Nat)
    (kw : Key) (v : Value) (h : lookup kw = .ok (some v)) (hu : utf8Valid v = true)
    (hp : REDIRECT.isPrefixOf (trimBytes v) = false) :
    dictSearchEntry lookup (fuel + 1) kw = .ok (some v) := by
  simp [dictSearchEntry, h, hu, hp]

/-- Claim C7: `Dictionary::search_entry` performs at most 3 exact lookups,
each redirect (`@@@LINK=` prefix of the trimmed value) replacing the key
with the remainder: a stored 3-step chain ending in a plain value returns
that value, and a chain that would need a fourth lookup returns absent. -/
theorem c7_redirect_chains :
    (∀ (lookup : Key → Except Unit (Option Value)) k0 k1 k2 v0 v1 v,
      lookup k0 = .ok (some v0) → utf8Valid v0 = true → trimBytes v0 = REDIRECT ++ k1 →
      lookup k1 = .ok (some v1) → utf8Valid v1 = true → trimBytes v1 = REDIRECT ++ k2 →
      lookup k2 = .ok (some v) → utf8Valid v = true →
      REDIRECT.isPrefixOf (trimBytes v) = false →
      dictionarySearchEntry lookup k0 = .ok (some v)) ∧
    (∀ (lookup : Key → Except Unit (Option Value)) k0 k1 k2 k3 v0 v1 v2,
      lookup k0 = .ok (some v0) → utf8Valid v0 = true → trimBytes v0 = REDIRECT ++ k1 →
      lookup k1 = .ok (some v1) → utf8Valid v1 = true → trimBytes v1 = REDIRECT ++ k2 →
      lookup k2 = .ok (some v2) → utf8Valid v2 = true → trimBytes v2 = REDIRECT ++ k3 →
      dictionarySearchEntry lookup k0 = .ok none) := by
  constructor
  · intro lookup k0 k1 k2 v0 v1 v h0 h0u h0t h1 h1u h1t h2 h2u h2p
    calc dictionarySearchEntry lookup k0
        = dictSearchEntry lookup (2 + 1) k0 := rfl
      _ = dictSearchEntry lookup (1 + 1) k1 := dictSearchEntry_redirect lookup 2 k0 k1 v0 h0 h0u h0t
      _ = dictSearchEntry lookup (0 + 1) k2 := dictSearchEntry_redirect lookup 1 k1 k2 v1 h1 h1u h1t
      _ = .ok (some v) := dictSearchEntry_final lookup 0 k2 v h2 h2u h2p
  · intro lookup k0 k1 k2 k3 v0 v1 v2 h0 h0u h0t h1 h1u h1t h2 h2u h2t
    calc dictionarySearchEntry lookup k0
        = dictSearchEntry lookup (2 + 1) k0 := rfl
      _ = dictSearchEntry lookup (1 + 1) k1 := dictSearchEntry_redirect lookup 2 k0 k1 v0 h0 h0u h0t
      _ = dictSearchEntry lookup (0 + 1) k2 := dictSearchEntry_redirect lookup 1 k1 k2 v1 h1 h1u h1t
      _ = dictSearchEntry lookup 0 k3 := dictSearchEntry_redirect lookup 0 k2 k3 v2 h2 h2u h2t
      _ = .ok none := rfl

/-- Witness for C7: the two stores above, evaluated through the theorem. -/
theorem c7_redirect_chains_witness :
    dictionarySearchEntry chainStore [107] = .ok (some [118, 97, 108]) ∧
      dictionarySearchEntry chainStore4 [107] = .ok none :=
  ⟨c7_redirect_chains.1 chainStore [107] [108] [109] (REDIRECT ++ [108]) (REDIRECT ++ [109])
      [118, 97, 108] rfl rfl rfl rfl rfl rfl rfl rfl rfl,
    c7_redirect_chains.2 chainStore4 [107] [108] [109] [110] (REDIRECT ++ [108])
      (REDIRECT ++ [109]) (REDIRECT ++ [110]) rfl rfl rfl rfl rfl rfl rfl rfl rfl⟩

/-! ### Order lemmas for the byte comparison -/

theorem cmpN_lt_iff (a b : Nat) : cmpN a b = .lt ↔ a < b := by
  unfold cmpN; split_ifs <;> simp_all <;> omega

theorem cmpN_gt_iff (a b : Nat) : cmpN a b = .gt ↔ b < a := by
  unfold cmpN; split_ifs <;> simp_all <;> omega

theorem cmpN_eq_iff (a b : Nat) : cmpN a b = .eq ↔ a = b := by
  unfold cmpN; split_ifs <;> simp_all <;> omega

theorem cmpK_refl (a : Key) : cmpK a a = .eq := by
  induction a with
  | nil => rfl
  | cons x xs ih => simp [cmpK, (cmpN_eq_iff x x).mpr rfl, ih]

theorem cmpK_eq_iff (a b : Key) : cmpK a b = .eq ↔ a = b := by
  induction a generalizing b with
  | nil => cases b <;> simp [cmpK]
  | cons x xs ih =>
    cases b with
    | nil => simp [cmpK]
    | cons y ys =>
      simp only [cmpK]
      cases hxy : cmpN x y with
      | lt =>
        have : x ≠ y := by have := (cmpN_lt_iff x y).mp hxy; omega
        simp [this]
      | gt =>
        have : x ≠ y := by have := (cmpN_gt_iff x y).mp hxy; omega
        simp [this]
      | eq =>
        have hx : x = y := (cmpN_eq_iff x y).mp hxy
        simp [hx, ih]

theorem cmpK_gt_iff_lt (a b : Key) : cmpK a b = .gt ↔ cmpK b a = .lt := by
  induction a generalizing b with
  | nil => cases b <;> simp [cmpK]
  | cons x xs ih =>
    cases b with
    | nil => simp [cmpK]
    | cons y ys =>
      simp only [cmpK]
      cases hxy : cmpN x y with
      | lt =>
        have h1 := (cmpN_lt_iff x y).mp hxy
        have h2 : cmpN y x = .gt := (cmpN_gt_iff y x).mpr h1
        simp [h2]
      | gt =>
        have h1 := (cmpN_gt_iff x y).mp hxy
        have h2 : cmpN y x = .lt := (cmpN_lt_iff y x).mpr h1
        simp [h2]
      | eq =>
        have hx : x = y := (cmpN_eq_iff x y).mp hxy
        have h2 : cmpN y x = .eq := (cmpN_eq_iff y x).mpr hx.symm
        simp [h2, ih]

theorem cmpK_lt_trans {a b c : Key} (h1 : cmpK a b = .lt) (h2 : cmpK b c = .lt) :
    cmpK a c = .lt := by
  induction a generalizing b c with
  | nil =>
    cases b with
    | nil => simp [cmpK] at h1
    | cons y ys => cases c with
      | nil => simp [cmpK] at h2
      | cons z zs => simp [cmpK]
  | cons x xs ih =>
    cases b with
    | nil => simp [cmpK] at h1
    | cons y ys =>
      cases c with
      | nil => simp [cmpK] at h2
      | cons z zs =>
        simp only [cmpK] at h1 h2 ⊢
        cases hxy : cmpN x y with
        | gt => rw [hxy] at h1; simp at h1
        | lt =>
          have hxylt := (cmpN_lt_iff x y).mp hxy
          cases hyz : cmpN y z with
          | gt => rw [hyz] at h2; simp at h2
          | lt =>
            have := (cmpN_lt_iff y z).mp hyz
            simp [(cmpN_lt_iff x z).mpr (by omega)]
          | eq =>
            have := (cmpN_eq_iff y z).mp hyz
            simp [(cmpN_lt_iff x z).mpr (by omega)]
        | eq =>
          have hxye := (cmpN_eq_iff x y).mp hxy
          rw [hxy] at h1
          cases hyz : cmpN y z with
          | gt => rw [hyz] at h2; simp at h2
          | lt =>
            have := (cmpN_lt_iff y z).mp hyz
            simp [(cmpN_lt_iff x z).mpr (by omega)]
          | eq =>
            have hyze := (cmpN_eq_iff y z).mp hyz
            rw [hyz] at h2
            simp only at h1 h2
            simp [(cmpN_eq_iff x z).mpr (by omega), ih h1 h2]

theorem cmpK_cases (a b : Key) :
    cmpK a b = .lt ∨ cmpK a b = .eq ∨ cmpK a b = .gt := by
  cases cmpK a b <;> simp

theorem cmpK_lt_of_lt_of_le {a b c : Key} (h1 : cmpK a b = .lt) (h2 : cmpK b c ≠ .gt) :
    cmpK a c = .lt := by
  rcases cmpK_cases b c with h | h | h
  · exact cmpK_lt_trans h1 h
  · rw [(cmpK_eq_iff b c).mp h] at h1; exact h1
  · exact absurd h h2

theorem cmpK_lt_of_le_of_lt {a b c : Key} (h1 : cmpK a b ≠ .gt) (h2 : cmpK b c = .lt) :
    cmpK a c = .lt := by
  rcases cmpK_cases a b with h | h | h
  · exact cmpK_lt_trans h h2
  · rw [(cmpK_eq_iff a b).mp h]; exact h2
  · exact absurd h h1

theorem cmpK_le_trans {a b c : Key} (h1 : cmpK a b ≠ .gt) (h2 : cmpK b c ≠ .gt) :
    cmpK a c ≠ .gt := by
  rcases cmpK_cases a b with h | h | h
  · have := cmpK_lt_of_lt_of_le h h2
    rw [this]
    simp
  · rw [(cmpK_eq_iff a b).mp h]; exact h2
  · exact absurd h h1

theorem cmpAt_rKey (leaf : Bool) (recs : List Key) (skey : Key) (j : Nat) :
    cmpAt leaf recs skey j = cmpK skey (rKey leaf recs j) := by
  cases leaf <;> simp [cmpAt, rKey]

/-- Auxiliary: on sorted records the binary-search loop lands at a
position `i` such that the search key is not below any record before `i`
and not above any record after `i` (under the node's comparison).  The
invariants say everything strictly left of `[li, hi]` is below the key
and everything strictly right of it is above. -/
theorem iofLoop_spec2 (leaf : Bool) (recs : List Key) (skey : Key)
    (hs : sortedR leaf recs) :
    ∀ fuel li hi, li ≤ hi → hi - li < fuel → hi < recs.length →
      (∀ j, j < li → cmpAt leaf recs skey j = .gt) →
      (∀ j, hi < j → j < recs.length → cmpAt leaf recs skey j = .lt) →
      ∃ i, li ≤ i ∧ i ≤ hi ∧
        iofLoop leaf recs skey fuel li hi = some (i, cmpAt leaf recs skey i) ∧
        (∀ j, j < i → cmpAt leaf recs skey j ≠ .lt) ∧
        (∀ j, i < j → j < recs.length → cmpAt leaf recs skey j ≠ .gt) := by
  intro fuel
  induction fuel with
  | zero => intro li hi h1 h2; omega
  | succ n ih =>
    intro li hi hle hf hlen inv1 inv2
    by_cases h1 : hi = li
    · refine ⟨hi, by omega, le_refl _, ?_, ?_, ?_⟩
      · have hmi : (li + li) / 2 = li := by omega
        simp [iofLoop, h1, hmi]
      · intro j hj
        rw [inv1 j (by omega)]
        simp
      · intro j hj hjl
        rw [inv2 j (by omega) hjl]
        simp
    · by_cases h2 : hi - li = 1
      · have hmi : (hi + li) / 2 = li := by omega
        by_cases h3 : cmpAt leaf recs skey ((hi + li) / 2) = Ordering.gt
        · rw [hmi] at h3
          refine ⟨hi, by omega, le_refl _, by simp [iofLoop, h1, h2, hmi, h3], ?_, ?_⟩
          · intro j hj
            rcases Nat.lt_or_ge j li with hc | hc
            · rw [inv1 j hc]; simp
            · have : j = li := by omega
              rw [this, h3]; simp
          · intro j hj hjl
            rw [inv2 j (by omega) hjl]
            simp
        · rw [hmi] at h3
          refine ⟨li, le_refl _, by omega, by simp [iofLoop, h1, h2, hmi, h3], ?_, ?_⟩
          · intro j hj
            rw [inv1 j hj]; simp
          · intro j hj hjl
            rcases Nat.lt_or_ge hi j with hc | hc
            · rw [inv2 j hc hjl]; simp
            · have hjhi : j = hi := by omega
              rw [hjhi]
              rw [cmpAt_rKey] at h3 ⊢
              exact cmpK_le_trans h3 (hs hi hlen li (by omega))
      · have hmi1 : li ≤ (hi + li) / 2 := by omega
        have hmi2 : (hi + li) / 2 < hi := by omega
        have hmi3 : li < (hi + li) / 2 := by omega
        by_cases h3 : cmpAt leaf recs skey ((hi + li) / 2) = Ordering.lt
        · have inv2a : ∀ j, (hi + li) / 2 < j → j < recs.length →
              cmpAt leaf recs skey j = .lt := by
            intro j hj hjl
            rcases Nat.lt_or_ge hi j with hc | hc
            · exact inv2 j hc hjl
            · rw [cmpAt_rKey] at h3 ⊢
              rcases Nat.lt_or_ge ((hi + li) / 2) j with hd | hd
              · exact cmpK_lt_of_lt_of_le h3 (hs j hjl ((hi + li) / 2) hd)
              · have : j = (hi + li) / 2 := by omega
                rw [this]; exact h3
          obtain ⟨i, hi1, hi2, hi3, hi4, hi5⟩ :=
            ih li ((hi + li) / 2) hmi1 (by omega) (by omega) inv1 inv2a
          exact ⟨i, hi1, by omega, by simp [iofLoop, h1, h2, h3]; exact hi3, hi4, hi5⟩
        · by_cases h4 : cmpAt leaf recs skey ((hi + li) / 2) = Ordering.gt
          · have inv1a : ∀ j, j < (hi + li) / 2 → cmpAt leaf recs skey j = .gt := by
              intro j hj
              rcases Nat.lt_or_ge j li with hc | hc
              · exact inv1 j hc
              · rw [cmpAt_rKey] at h4 ⊢
                rw [cmpK_gt_iff_lt] at h4 ⊢
                exact cmpK_lt_of_le_of_lt (hs ((hi + li) / 2) (by omega) j hj) h4
            obtain ⟨i, hi1, hi2, hi3, hi4, hi5⟩ :=
              ih ((hi + li) / 2) hi (by omega) (by omega) hlen inv1a inv2
            exact ⟨i, by omega, hi2, by simp [iofLoop, h1, h2, h3, h4]; exact hi3, hi4, hi5⟩
          · have heq : cmpAt leaf recs skey ((hi + li) / 2) = Ordering.eq := by
              rcases cmpK_cases skey (rKey leaf recs ((hi + li) / 2)) with h | h | h <;>
                rw [cmpAt_rKey] at h3 h4 ⊢ <;> simp_all
            have hskey : skey = rKey leaf recs ((hi + li) / 2) := by
              rw [cmpAt_rKey] at heq
              exact (cmpK_eq_iff _ _).mp heq
            refine ⟨(hi + li) / 2, hmi1, by omega,
              by simp [iofLoop, h1, h2, h3, h4, heq], ?_, ?_⟩
            · intro j hj
              rcases Nat.lt_or_ge j li with hc | hc
              · rw [inv1 j hc]; simp
              · rw [cmpAt_rKey, hskey]
                intro habs
                rw [← cmpK_gt_iff_lt] at habs
                exact hs ((hi + li) / 2) (by omega) j hj habs
            · intro j hj hjl
              rcases Nat.lt_or_ge hi j with hc | hc
              · rw [inv2 j hc hjl]; simp
              · rw [cmpAt_rKey, hskey]
                exact hs j hjl ((hi + li) / 2) hj

/-! ### List indexing utilities -/

theorem listInsertAt_length {α : Type} (n : Nat) (a : α) (l : List α) (h : n ≤ l.length) :
    (listInsertAt n a l).length = l.length + 1 := by
  simp [listInsertAt]
  omega

theorem getD_listInsertAt_lt {α : Type} (n : Nat) (a : α) (l : List α) (d : α)
    (h : n ≤ l.length) (i : Nat) (hi : i < n) :
    (listInsertAt n a l).getD i d = l.getD i d := by
  unfold listInsertAt
  rw [List.getD_append]
  · rw [List.getD_eq_getElem?_getD, List.getD_eq_getElem?_getD, List.getElem?_take_of_lt hi]
  · simp; omega

theorem getD_listInsertAt_self {α : Type} (n : Nat) (a : α) (l : List α) (d : α)
    (h : n ≤ l.length) :
    (listInsertAt n a l).getD n d = a := by
  unfold listInsertAt
  rw [List.getD_append_right]
  · simp [List.length_take, Nat.min_eq_left h]
  · simp [List.length_take]

theorem getD_listInsertAt_gt {α : Type} (n : Nat) (a : α) (l : List α) (d : α)
    (h : n ≤ l.length) (i : Nat) (hi : n < i) :
    (listInsertAt n a l).getD i d = l.getD (i - 1) d := by
  unfold listInsertAt
  rw [List.getD_append_right]
  · have hlt : (l.take n).length = n := by simp [List.length_take]; omega
    rw [hlt]
    have : i - n = (i - n - 1) + 1 := by omega
    rw [this]
    simp only [List.getD_cons_succ]
    rw [List.getD_eq_getElem?_getD, List.getD_eq_getElem?_getD, List.getElem?_drop]
    have heq : n + (i - n - 1) = i - 1 := by omega
    rw [heq]
  · simp [List.length_take]; omega

theorem getD_set_eq {α : Type} (n : Nat) (b : α) (l : List α) (d : α) (h : n < l.length) :
    (l.set n b).getD n d = b := by
  rw [List.getD_eq_getElem?_getD, List.getElem?_set_self h]
  rfl

theorem getD_set_ne {α : Type} (n : Nat) (b : α) (l : List α) (d : α) (i : Nat) (h : i ≠ n) :
    (l.set n b).getD i d = l.getD i d := by
  rw [List.getD_eq_getElem?_getD, List.getD_eq_getElem?_getD, List.getElem?_set_ne (by omega)]

theorem getD_take {α : Type} (n i : Nat) (l : List α) (d : α) (h : i < n) :
    (l.take n).getD i d = l.getD i d := by
  rw [List.getD_eq_getElem?_getD, List.getD_eq_getElem?_getD, List.getElem?_take_of_lt h]

theorem getD_drop {α : Type} (n i : Nat) (l : List α) (d : α) :
    (l.drop n).getD i d = l.getD (n + i) d := by
  rw [List.getD_eq_getElem?_getD, List.getD_eq_getElem?_getD, List.getElem?_drop]

theorem mem_listInsertAt {α : Type} (n : Nat) (a x : α) (l : List α)
    (h : x ∈ listInsertAt n a l) : x = a ∨ x ∈ l := by
  unfold listInsertAt at h
  rcases List.mem_append.mp h with h1 | h1
  · exact Or.inr (List.mem_of_mem_take h1)
  · rcases List.mem_cons.mp h1 with h2 | h2
    · exact Or.inl h2
    · exact Or.inr (List.mem_of_mem_drop h2)

theorem take_getD_drop {α : Type} (n : Nat) (l : List α) (d : α) (h : n < l.length) :
    l = l.take n ++ l.getD n d :: l.drop (n + 1) := by
  induction n generalizing l with
  | zero =>
    cases l with
    | nil => simp at h
    | cons x xs => simp
  | succ m ihm =>
    cases l with
    | nil => simp at h
    | cons x xs =>
      simp only [List.take_succ_cons, List.getD_cons_succ, List.drop_succ_cons, List.cons_append,
        List.cons.injEq, true_and]
      exact ihm xs (by simpa using h)

theorem set_eq_take_cons_drop {α : Type} (n : Nat) (a : α) (l : List α) (h : n < l.length) :
    l.set n a = l.take n ++ a :: l.drop (n + 1) := by
  induction n generalizing l with
  | zero =>
    cases l with
    | nil => simp at h
    | cons x xs => simp
  | succ m ihm =>
    cases l with
    | nil => simp at h
    | cons x xs =>
      simp only [List.set_cons_succ, List.take_succ_cons, List.drop_succ_cons, List.cons_append,
        List.cons.injEq, true_and]
      exact ihm xs (by simpa using h)

theorem flattenK_append (l1 l2 : List TNode) :
    flattenK (l1 ++ l2) = flattenK l1 ++ flattenK l2 := by
  induction l1 with
  | nil => simp [flattenK]
  | cons c rest ih => simp [flattenK, ih]

theorem flattenK_take_drop (n : Nat) (cs : List TNode) :
    flattenK (cs.take n) ++ flattenK (cs.drop n) = flattenK cs := by
  rw [← flattenK_append, List.take_append_drop]

theorem flattenK_cons (c : TNode) (rest : List TNode) :
    flattenK (c :: rest) = flattenT c ++ flattenK rest := rfl

theorem flattenK_listInsertAt (n : Nat) (c : TNode) (cs : List TNode) :
    flattenK (listInsertAt n c cs) = flattenK (cs.take n) ++ flattenT c ++ flattenK (cs.drop n) := by
  unfold listInsertAt
  rw [flattenK_append, flattenK_cons]
  simp [List.append_assoc]

theorem leavesOfK_append (l1 l2 : List TNode) :
    leavesOfK (l1 ++ l2) = leavesOfK l1 ++ leavesOfK l2 := by
  induction l1 with
  | nil => simp [leavesOfK]
  | cons c rest ih => simp [leavesOfK, ih]

theorem leavesOf_flatten_all :
    (∀ t, (leavesOf t).flatten = flattenT t) ∧
      (∀ cs, (leavesOfK cs).flatten = flattenK cs) := by
  have key : ∀ n, (∀ t, sizeOf t ≤ n → (leavesOf t).flatten = flattenT t) ∧
      (∀ cs : List TNode, sizeOf cs ≤ n → (leavesOfK cs).flatten = flattenK cs) := by
    intro n
    induction n using Nat.strong_induction_on with
    | _ n ih =>
      constructor
      · intro t ht
        cases t with
        | leaf recs => simp [leavesOf, flattenT]
        | index recs children =>
          have h1 : sizeOf children < sizeOf (TNode.index recs children) := by
            simp [TNode.index.sizeOf_spec]
          have hn : 0 < n := by omega
          rw [leavesOf, flattenT]
          exact (ih (n - 1) (by omega)).2 children (by omega)
      · intro cs hcs
        cases cs with
        | nil => simp [leavesOfK, flattenK]
        | cons c rest =>
          have h1 : sizeOf c < sizeOf (c :: rest) := by
            simp only [List.cons.sizeOf_spec]; omega
          have h2 : sizeOf rest < sizeOf (c :: rest) := by
            simp only [List.cons.sizeOf_spec]; omega
          have hn : 0 < n := by
            have h3 : 0 < sizeOf (c :: rest) := by
              have h4 := h1
              omega
            omega
          rw [leavesOfK, flattenK, List.flatten_append]
          rw [(ih (n - 1) (by omega)).1 c (by omega), (ih (n - 1) (by omega)).2 rest (by omega)]
  exact ⟨fun t => (key (sizeOf t)).1 t (le_refl _), fun cs => (key (sizeOf cs)).2 cs (le_refl _)⟩

/-! ### Height bookkeeping -/

theorem height_mem_le (c : TNode) (cs : List TNode) (h : c ∈ cs) : c.height ≤ heightK cs := by
  induction cs with
  | nil => simp at h
  | cons x rest ih =>
    rcases List.mem_cons.mp h with h1 | h1
    · rw [h1, heightK]; exact Nat.le_max_left _ _
    · rw [heightK]; exact le_trans (ih h1) (Nat.le_max_right _ _)

theorem heightK_set_le (cs : List TNode) (ci : Nat) (c1 : TNode) :
    heightK (cs.set ci c1) ≤ max (heightK cs) c1.height := by
  induction cs generalizing ci with
  | nil => simp [heightK]
  | cons x rest ih =>
    cases ci with
    | zero => rw [List.set_cons_zero, heightK, heightK]; omega
    | succ m =>
      rw [List.set_cons_succ, heightK, heightK]
      have := ih m
      omega

theorem heightK_append (l1 l2 : List TNode) :
    heightK (l1 ++ l2) = max (heightK l1) (heightK l2) := by
  induction l1 with
  | nil => simp [heightK]
  | cons c rest ih => rw [List.cons_append, heightK, heightK, ih]; omega

theorem heightK_listInsertAt_le (n : Nat) (c : TNode) (cs : List TNode) :
    heightK (listInsertAt n c cs) ≤ max (heightK cs) c.height := by
  unfold listInsertAt
  rw [heightK_append, heightK]
  have h1 : heightK (cs.take n) ≤ heightK cs := by
    have := heightK_append (cs.take n) (cs.drop n)
    rw [List.take_append_drop] at this
    omega
  have h2 : heightK (cs.drop n) ≤ heightK cs := by
    have := heightK_append (cs.take n) (cs.drop n)
    rw [List.take_append_drop] at this
    omega
  omega

theorem heightK_take_le (n : Nat) (cs : List TNode) : heightK (cs.take n) ≤ heightK cs := by
  have := heightK_append (cs.take n) (cs.drop n)
  rw [List.take_append_drop] at this
  omega

theorem heightK_drop_le (n : Nat) (cs : List TNode) : heightK (cs.drop n) ≤ heightK cs := by
  have := heightK_append (cs.take n) (cs.drop n)
  rw [List.take_append_drop] at this
  omega

/-! ### Bound utilities -/

theorem loB_trans {lo : Option Key} {x y : Key} (h1 : loB lo x) (h2 : cmpK x y ≠ .gt) :
    loB lo y := by
  cases lo with
  | none => trivial
  | some b => exact cmpK_le_trans h1 h2

theorem hiB_trans {hi : Option Key} {x y : Key} (h1 : cmpK y x ≠ .gt) (h2 : hiB hi x) :
    hiB hi y := by
  cases hi with
  | none => trivial
  | some b => exact cmpK_le_trans h1 h2

theorem sepLo_cons (lo : Option Key) (s : Key) (rs : List Key) (j : Nat) :
    sepLo (some s) rs j = sepLo lo (s :: rs) (j + 1) := by
  cases j with
  | zero => simp [sepLo]
  | succ m => simp [sepLo]

theorem sepHi_cons (hi : Option Key) (s : Key) (rs : List Key) (j : Nat) :
    sepHi hi rs j = sepHi hi (s :: rs) (j + 1) := by
  unfold sepHi
  by_cases h : j = rs.length
  · simp [h]
  · have h2 : ¬(j + 1 = (s :: rs).length) := by simp; omega
    simp [h, h2]

theorem getD_map_lt {α β : Type} (f : α → β) (l : List α) (i : Nat) (d : α) (d2 : β)
    (h : i < l.length) : (l.map f).getD i d2 = f (l.getD i d) := by
  rw [List.getD_eq_getElem _ _ (by simpa using h), List.getD_eq_getElem _ _ h, List.getElem_map]

/-- Facts about the concatenated leaf records of an index node, assembled
child by child from the separator structure. -/
theorem chainFlatten :
    ∀ (rs : List Key) (cs : List TNode) (lo hi : Option Key),
      cs.length = rs.length + 1 →
      (∀ s ∈ rs, loB lo s ∧ hiB hi s) →
      (∀ j, j < rs.length → ∀ i, i < j → cmpK (rs.getD i []) (rs.getD j []) ≠ .gt) →
      (∀ i, i < cs.length →
        flattenT (cs.getD i (.leaf [])) ≠ [] ∧
          List.Pairwise leSm (flattenT (cs.getD i (.leaf []))) ∧
          (∀ r ∈ flattenT (cs.getD i (.leaf [])),
            loB (sepLo lo rs i) (smooth r.1) ∧ hiB (sepHi hi rs i) (smooth r.1) ∧
              goodKey r.1 ∧ goodVal r.2)) →
      flattenK cs ≠ [] ∧ List.Pairwise leSm (flattenK cs) ∧
        (∀ r ∈ flattenK cs, loB lo (smooth r.1) ∧ hiB hi (smooth r.1) ∧
          goodKey r.1 ∧ goodVal r.2) := by
  intro rs
  induction rs with
  | nil =>
    intro cs lo hi hlen hsep hsort hkids
    match cs, hlen with
    | [c], _ =>
      have h0 := hkids 0 (by simp)
      simp only [List.getD_cons_zero] at h0
      have hsl : sepLo lo ([] : List Key) 0 = lo := by simp [sepLo]
      have hsh : sepHi hi ([] : List Key) 0 = hi := by simp [sepHi]
      rw [hsl, hsh] at h0
      simpa [flattenK] using h0
  | cons s rs2 ih =>
    intro cs lo hi hlen hsep hsort hkids
    match cs with
    | c :: cs2 =>
      have hlen2 : cs2.length = rs2.length + 1 := by simpa using hlen
      have hc0 := hkids 0 (by simp)
      simp only [List.getD_cons_zero] at hc0
      have hsl0 : sepLo lo (s :: rs2) 0 = lo := by simp [sepLo]
      have hsh0 : sepHi hi (s :: rs2) 0 = some s := by
        have : ¬(0 = (s :: rs2).length) := by simp
        simp [sepHi, this]
      rw [hsl0, hsh0] at hc0
      obtain ⟨hne0, hpw0, hmem0⟩ := hc0
      have hrec := ih cs2 (some s) hi hlen2 ?_ ?_ ?_
      · obtain ⟨hne2, hpw2, hmem2⟩ := hrec
        refine ⟨?_, ?_, ?_⟩
        · rw [flattenK_cons]
          intro habs
          exact hne0 (List.append_eq_nil.mp habs).1
        · rw [flattenK_cons, List.pairwise_append]
          refine ⟨hpw0, hpw2, ?_⟩
          intro a ha b hb
          have h1 := (hmem0 a ha).2.1
          have h2 := (hmem2 b hb).1
          exact cmpK_le_trans h1 h2
        · intro r hr
          rw [flattenK_cons] at hr
          rcases List.mem_append.mp hr with h1 | h1
          · obtain ⟨hl, hh, hg, hv⟩ := hmem0 r h1
            refine ⟨hl, ?_, hg, hv⟩
            exact hiB_trans hh (hsep s (by simp)).2
          · obtain ⟨hl, hh, hg, hv⟩ := hmem2 r h1
            refine ⟨?_, hh, hg, hv⟩
            exact loB_trans (hsep s (by simp)).1 hl
      · intro s2 hs2
        refine ⟨?_, (hsep s2 (by simp [hs2])).2⟩
        obtain ⟨j, hj, hjeq⟩ := List.getElem_of_mem hs2
        have := hsort (j + 1) (by simpa using by omega) 0 (by omega)
        simp only [List.getD_cons_zero, List.getD_cons_succ] at this
        rw [List.getD_eq_getElem _ _ hj, hjeq] at this
        exact this
      · intro j hj i hi2
        have := hsort (j + 1) (by simp; omega) (i + 1) (by omega)
        simpa using this
      · intro i hi2
        have := hkids (i + 1) (by simp; omega)
        simp only [List.getD_cons_succ] at this
        rw [← sepLo_cons lo, ← sepHi_cons hi] at this
        exact this

theorem sortedIdx_pairwise (recs : List (Key × Value))
    (h : sortedIdx (fun r => smooth r.1) ([], []) recs) : List.Pairwise leSm recs := by
  rw [List.pairwise_iff_getElem]
  intro i j hi hj hij
  have h2 := h j hj i hij
  rw [List.getD_eq_getElem _ _ hi, List.getD_eq_getElem _ _ hj] at h2
  exact h2

/-- The leaf records of a well-formed subtree: non-empty, sorted by
smoothed key, inside the subtree bounds, and serialisable. -/
theorem WF_flatten_facts :
    ∀ (t : TNode) (lo hi : Option Key), WF lo hi t →
      flattenT t ≠ [] ∧ List.Pairwise leSm (flattenT t) ∧
        (∀ r ∈ flattenT t, loB lo (smooth r.1) ∧ hiB hi (smooth r.1) ∧
          goodKey r.1 ∧ goodVal r.2) := by
  have key : ∀ n t, sizeOf t ≤ n → ∀ (lo hi : Option Key), WF lo hi t →
      flattenT t ≠ [] ∧ List.Pairwise leSm (flattenT t) ∧
        (∀ r ∈ flattenT t, loB lo (smooth r.1) ∧ hiB hi (smooth r.1) ∧
          goodKey r.1 ∧ goodVal r.2) := by
    intro n
    induction n using Nat.strong_induction_on with
    | _ n ih =>
      intro t ht lo hi hwf
      cases hwf with
      | leaf lo hi recs hne hpw hbnd hgood =>
        refine ⟨by simpa [flattenT] using hne,
          by simpa [flattenT] using sortedIdx_pairwise recs hpw, ?_⟩
        intro r hr
        simp only [flattenT] at hr
        exact ⟨(hbnd r hr).1, (hbnd r hr).2, (hgood r hr).1, (hgood r hr).2⟩
      | index lo hi recs children hne hclen hgood hsep hsort hkids =>
        have hsz : sizeOf children < sizeOf (TNode.index recs children) := by
          simp [TNode.index.sizeOf_spec]
        rw [flattenT]
        refine chainFlatten recs children lo hi hclen hsep
          (fun j hj i hi2 => by simpa using hsort j hj i hi2) ?_
        intro i hi2
        have hmem : children.getD i (.leaf []) ∈ children := by
          rw [List.getD_eq_getElem _ _ hi2]
          exact List.getElem_mem hi2
        have hszc : sizeOf (children.getD i (.leaf [])) < sizeOf children :=
          List.sizeOf_lt_of_mem hmem
        exact ih (n - 1) (by omega) _ (by omega) _ _ (hkids i hi2)
  exact fun t lo hi hwf => key (sizeOf t) t (le_refl _) lo hi hwf

theorem sortedIdx_insert {α : Type} (f : α → Key) (d : α) (l : List α) (x : α) (pos : Nat)
    (hpos : pos ≤ l.length) (hsort : sortedIdx f d l)
    (h1 : ∀ j, j < pos → cmpK (f (l.getD j d)) (f x) ≠ .gt)
    (h2 : ∀ j, pos ≤ j → j < l.length → cmpK (f x) (f (l.getD j d)) ≠ .gt) :
    sortedIdx f d (listInsertAt pos x l) := by
  intro j hj i hij
  rw [listInsertAt_length _ _ _ hpos] at hj
  rcases Nat.lt_trichotomy i pos with hi1 | hi1 | hi1
  · rw [getD_listInsertAt_lt _ _ _ _ hpos i hi1]
    rcases Nat.lt_trichotomy j pos with hj1 | hj1 | hj1
    · rw [getD_listInsertAt_lt _ _ _ _ hpos j hj1]
      exact hsort j (by omega) i hij
    · rw [hj1, getD_listInsertAt_self _ _ _ _ hpos]
      exact h1 i (by omega)
    · rw [getD_listInsertAt_gt _ _ _ _ hpos j hj1]
      exact hsort (j - 1) (by omega) i (by omega)
  · rw [← hi1] at hpos ⊢
    rw [getD_listInsertAt_self _ _ _ _ hpos, getD_listInsertAt_gt _ _ _ _ hpos j (by omega)]
    exact h2 (j - 1) (by omega) (by omega)
  · rw [getD_listInsertAt_gt _ _ _ _ hpos i hi1, getD_listInsertAt_gt _ _ _ _ hpos j (by omega)]
    exact hsort (j - 1) (by omega) (i - 1) (by omega)

theorem sortedIdx_take {α : Type} (f : α → Key) (d : α) (l : List α) (n : Nat)
    (h : sortedIdx f d l) : sortedIdx f d (l.take n) := by
  intro j hj i hij
  rw [List.length_take] at hj
  rw [getD_take n i l d (by omega), getD_take n j l d (by omega)]
  exact h j (by omega) i hij

theorem sortedIdx_drop {α : Type} (f : α → Key) (d : α) (l : List α) (n : Nat)
    (h : sortedIdx f d l) : sortedIdx f d (l.drop n) := by
  intro j hj i hij
  rw [List.length_drop] at hj
  rw [getD_drop, getD_drop]
  exact h (n + j) (by omega) (n + i) (by omega)

/-! ### ASCII lowering commutes with UTF-8 validity -/

theorem asciiLower_lt128 (c : Nat) (h : c < 128) : asciiLower c < 128 := by
  unfold asciiLower; split_ifs <;> omega

theorem asciiLower_ge128 (c : Nat) (h : 128 ≤ c) : asciiLower c = c := by
  unfold asciiLower; split_ifs with h2
  · omega
  · rfl

theorem isCont_asciiLower (c : Nat) : isCont (asciiLower c) = isCont c := by
  unfold isCont asciiLower; split_ifs with h
  · have h1 : ¬(128 ≤ c) := by omega
    have h2 : ¬(128 ≤ c + 32) := by omega
    simp [h1, h2]
  · rfl

theorem asciiLower_ge_iff (c m : Nat) (h : 123 ≤ m) :
    decide (m ≤ asciiLower c) = decide (m ≤ c) := by
  unfold asciiLower; split_ifs with h2
  · have h3 : ¬(m ≤ c + 32) := by omega
    have h4 : ¬(m ≤ c) := by omega
    simp [h3, h4]
  · rfl

theorem asciiLower_le_iff (c m : Nat) (h : 122 ≤ m) :
    decide (asciiLower c ≤ m) = decide (c ≤ m) := by
  unfold asciiLower; split_ifs with h2
  · have h3 : c + 32 ≤ m := by omega
    have h4 : c ≤ m := by omega
    simp [h3, h4]
  · rfl

theorem utf8Valid_cons (b : Nat) (l : List Nat) :
    utf8Valid (b :: l) =
      (if b < 128 then utf8Valid l
        else if b < 194 then false
        else if b ≤ 223 then
          match l with
          | c :: l2 => isCont c && utf8Valid l2
          | [] => false
        else if b ≤ 239 then
          match l with
          | c1 :: c2 :: l2 =>
            (if b = 224 then decide (160 ≤ c1) else true) &&
              (if b = 237 then decide (c1 ≤ 159) else true) &&
              isCont c1 && isCont c2 && utf8Valid l2
          | _ => false
        else if b ≤ 244 then
          match l with
          | c1 :: c2 :: c3 :: l2 =>
            (if b = 240 then decide (144 ≤ c1) else true) &&
              (if b = 244 then decide (c1 ≤ 143) else true) &&
              isCont c1 && isCont c2 && isCont c3 && utf8Valid l2
          | _ => false
        else false) := by
  cases l with
  | nil => rfl
  | cons c1 l1 =>
    cases l1 with
    | nil => rfl
    | cons c2 l2 =>
      cases l2 with
      | nil => rfl
      | cons c3 l3 => rfl

theorem utf8Valid_smooth : ∀ l : List Nat, utf8Valid (smooth l) = utf8Valid l := by
  have key : ∀ n (l : List Nat), l.length ≤ n → utf8Valid (l.map asciiLower) = utf8Valid l := by
    intro n
    induction n with
    | zero =>
      intro l hl
      have h0 : l = [] := List.eq_nil_of_length_eq_zero (by omega)
      subst h0
      rfl
    | succ m ih =>
      intro l hl
      cases l with
      | nil => rfl
      | cons b l2 =>
        have hl2 : l2.length ≤ m := by
          simp only [List.length_cons] at hl
          omega
        simp only [List.map_cons]
        rw [utf8Valid_cons, utf8Valid_cons]
        by_cases h1 : b < 128
        · have h1b : asciiLower b < 128 := asciiLower_lt128 b h1
          rw [if_pos h1b, if_pos h1]
          exact ih l2 hl2
        · have hbeq : asciiLower b = b := asciiLower_ge128 b (by omega)
          rw [hbeq]
          rw [if_neg h1, if_neg h1]
          by_cases h2 : b < 194
          · rw [if_pos h2, if_pos h2]
          · rw [if_neg h2, if_neg h2]
            by_cases h3 : b ≤ 223
            · rw [if_pos h3, if_pos h3]
              cases l2 with
              | nil => rfl
              | cons c l3 =>
                have hl3 : l3.length ≤ m := by
                  simp only [List.length_cons] at hl
                  omega
                simp only [List.map_cons]
                rw [isCont_asciiLower c, ih l3 (by omega)]
            · rw [if_neg h3, if_neg h3]
              by_cases h4 : b ≤ 239
              · rw [if_pos h4, if_pos h4]
                cases l2 with
                | nil => rfl
                | cons c1 l3 =>
                  cases l3 with
                  | nil => rfl
                  | cons c2 l4 =>
                    have hl4 : l4.length ≤ m := by
                      simp only [List.length_cons] at hl
                      omega
                    simp only [List.map_cons]
                    rw [isCont_asciiLower c1, isCont_asciiLower c2,
                      asciiLower_ge_iff c1 160 (by omega), asciiLower_le_iff c1 159 (by omega),
                      ih l4 (by omega)]
              · rw [if_neg h4, if_neg h4]
                by_cases h5 : b ≤ 244
                · rw [if_pos h5, if_pos h5]
                  cases l2 with
                  | nil => rfl
                  | cons c1 l3 =>
                    cases l3 with
                    | nil => rfl
                    | cons c2 l4 =>
                      cases l4 with
                      | nil => rfl
                      | cons c3 l5 =>
                        have hl5 : l5.length ≤ m := by
                          simp only [List.length_cons] at hl
                          omega
                        simp only [List.map_cons]
                        rw [isCont_asciiLower c1, isCont_asciiLower c2, isCont_asciiLower c3,
                          asciiLower_ge_iff c1 144 (by omega), asciiLower_le_iff c1 143 (by omega),
                          ih l5 (by omega)]
                · rw [if_neg h5, if_neg h5]
  exact fun l => key l.length l (le_refl _)

theorem goodKey_smooth (k : Key) (h : goodKey k) : goodKey (smooth k) := by
  obtain ⟨h1, h2⟩ := h
  refine ⟨by rw [utf8Valid_smooth]; exact h1, ?_⟩
  simpa [smooth] using h2

/-! ### Bridges from the invariant to `index_of` -/

theorem TNode.height_pos (t : TNode) : 1 ≤ t.height := by
  cases t with
  | leaf recs => simp [TNode.height]
  | index recs cs => simp [TNode.height]

theorem getLast_take {α : Type} (l : List α) (n : Nat) (d : α) (h1 : 0 < n)
    (h2 : n ≤ l.length) : (l.take n).getLast?.getD d = l.getD (n - 1) d := by
  have hlen : (l.take n).length = n := by rw [List.length_take]; omega
  rw [List.getLast?_eq_getElem?, hlen, List.getElem?_take, if_pos (by omega : n - 1 < n),
    List.getElem?_eq_getElem (by omega), List.getD_eq_getElem _ _ (by omega : n - 1 < l.length)]
  rfl

theorem get?_eq_getD {α : Type} (l : List α) (i : Nat) (d : α) (h : i < l.length) :
    l.get? i = some (l.getD i d) := by
  rw [List.get?_eq_getElem?, List.getElem?_eq_getElem h, List.getD_eq_getElem _ _ h]

/-- A leaf sorted by smoothed key (as `WF` states it) is sorted under the
comparison `index_of` applies to its key list. -/
theorem sortedR_of_leaf (recs : List (Key × Value))
    (h : sortedIdx (fun r => smooth r.1) ([], []) recs) :
    sortedR true (recs.map Prod.fst) := by
  intro j hj i hij
  rw [List.length_map] at hj
  unfold rKey
  simp only [if_pos rfl]
  rw [getD_map_lt Prod.fst recs i ([], []) [] (by omega),
    getD_map_lt Prod.fst recs j ([], []) [] hj]
  exact h j hj i hij

/-- An index node's separator list sorted as stored is sorted under the
comparison `index_of` applies to it. -/
theorem sortedR_of_index (recs : List Key) (h : sortedIdx id [] recs) :
    sortedR false recs := by
  intro j hj i hij
  unfold rKey
  simp only [if_neg (by simp : ¬(false = true))]
  exact h j hj i hij

/-- `Node::index_of` on a sorted non-empty record list: the returned index
is in range, the returned ordering is the comparison at that index, every
record left of it is strictly below the smoothed key и every record right
of it is at least the smoothed key. -/
theorem indexOf_props (leaf : Bool) (recs : List Key) (key : Key)
    (hne : recs ≠ []) (hs : sortedR leaf recs) :
    ∃ i, i < recs.length ∧
      indexOf leaf recs key = some (i, cmpAt leaf recs (smooth key) i) ∧
      (∀ j, j < i → cmpAt leaf recs (smooth key) j ≠ .lt) ∧
      (∀ j, i < j → j < recs.length → cmpAt leaf recs (smooth key) j ≠ .gt) := by
  have hlen : recs.length ≠ 0 := by
    intro habs
    exact hne (List.eq_nil_of_length_eq_zero habs)
  obtain ⟨i, hi1, hi2, hi3, hi4, hi5⟩ :=
    iofLoop_spec2 leaf recs (smooth key) hs recs.length 0 (recs.length - 1)
      (by omega) (by omega) (by omega)
      (fun j hj => by omega) (fun j hj hjl => by omega)
  refine ⟨i, by omega, ?_, hi4, hi5⟩
  unfold indexOf
  rw [if_neg hlen]
  exact hi3

theorem listInsertAt_perm {α : Type} (n : Nat) (x : α) (l : List α) :
    (listInsertAt n x l).Perm (x :: l) := by
  unfold listInsertAt
  refine List.Perm.trans List.perm_middle ?_
  rw [List.take_append_drop]

/-! ### Step equations for `insertR` -/

theorem crIsLe_false_iff (o : Ordering) : crIsLe o = false ↔ o = .gt := by
  cases o <;> simp [crIsLe]

theorem crIsLe_true_iff (o : Ordering) : crIsLe o = true ↔ o ≠ .gt := by
  cases o <;> simp [crIsLe]

theorem insertR_leaf_step (limI limL : Nat) (k : Key) (v : Value) (f : Nat)
    (recs : List (Key × Value)) :
    insertR limI limL k v (f + 1) (.leaf recs) =
      match indexOf true (recs.map Prod.fst) k with
      | none => none
      | some (wi, cr) =>
        let pos := if crIsLe cr then wi else wi + 1
        let recs1 := listInsertAt pos (k, v) recs
        if recs1.length > 1 ∧ (TNode.leaf recs1).size > limL then
          let dv := recs1.length / 2
          let sep := smooth (recs1.getD (dv - 1) ([], [])).1
          some (.leaf (recs1.take dv), some (sep, .leaf (recs1.drop dv)))
        else some (.leaf recs1, none) := rfl

theorem insertR_index_step (limI limL : Nat) (k : Key) (v : Value) (f : Nat)
    (recs : List Key) (children : List TNode) :
    insertR limI limL k v (f + 1) (.index recs children) =
      match indexOf false recs k with
      | none => none
      | some (wi, cr) =>
        let ci := if crIsLe cr then wi else wi + 1
        match children.get? ci with
        | none => none
        | some child =>
          match insertR limI limL k v f child with
          | none => none
          | some (c1, none) => some (.index recs (children.set ci c1), none)
          | some (c1, some (sep, newNode)) =>
            let recs1 := listInsertAt ci sep recs
            let children1 := listInsertAt (ci + 1) newNode (children.set ci c1)
            let nd := TNode.index recs1 children1
            if nd.size > limI ∧ recs1.length ≥ 3 then
              let dv := recs1.length / 2 + 1
              let precord := (recs1.take dv).getLast?.getD []
              some (.index (recs1.take (dv - 1)) (children1.take dv),
                some (precord, .index (recs1.drop dv) (children1.drop dv)))
            else some (nd, none) := rfl

theorem insertR_leaf_eq (limI limL : Nat) (k : Key) (v : Value) (f : Nat)
    (recs : List (Key × Value)) (wi : Nat) (cr : Ordering)
    (hio : indexOf true (recs.map Prod.fst) k = some (wi, cr)) :
    insertR limI limL k v (f + 1) (.leaf recs) =
      (let pos := if crIsLe cr then wi else wi + 1
       let recs1 := listInsertAt pos (k, v) recs
       if recs1.length > 1 ∧ (TNode.leaf recs1).size > limL then
         let dv := recs1.length / 2
         let sep := smooth (recs1.getD (dv - 1) ([], [])).1
         some (.leaf (recs1.take dv), some (sep, .leaf (recs1.drop dv)))
       else some (.leaf recs1, none)) := by
  rw [insertR_leaf_step, hio]

theorem insertR_index_eq (limI limL : Nat) (k : Key) (v : Value) (f : Nat)
    (recs : List Key) (children : List TNode) (wi : Nat) (cr : Ordering) (child : TNode)
    (hio : indexOf false recs k = some (wi, cr))
    (hget : children.get? (if crIsLe cr then wi else wi + 1) = some child) :
    insertR limI limL k v (f + 1) (.index recs children) =
      (match insertR limI limL k v f child with
       | none => none
       | some (c1, none) =>
         some (.index recs (children.set (if crIsLe cr then wi else wi + 1) c1), none)
       | some (c1, some (sep, newNode)) =>
         let ci := if crIsLe cr then wi else wi + 1
         let recs1 := listInsertAt ci sep recs
         let children1 := listInsertAt (ci + 1) newNode (children.set ci c1)
         let nd := TNode.index recs1 children1
         if nd.size > limI ∧ recs1.length ≥ 3 then
           let dv := recs1.length / 2 + 1
           let precord := (recs1.take dv).getLast?.getD []
           some (.index (recs1.take (dv - 1)) (children1.take dv),
             some (precord, .index (recs1.drop dv) (children1.drop dv)))
         else some (nd, none)) := by
  rw [insertR_index_step, hio]
  dsimp only
  rw [hget]

/-- Inserting into a well-formed leaf: the result is either one
well-formed leaf holding the old records plus `(k, v)`, or a split into
two well-formed leaves around a smoothed separator. -/
theorem insertR_leaf_WF (limI limL : Nat) (k : Key) (v : Value) (hk : goodKey k)
    (hv : goodVal v) (f : Nat) (recs : List (Key × Value)) (lo hi : Option Key)
    (hne : recs ≠ []) (hsort : sortedIdx (fun r => smooth r.1) ([], []) recs)
    (hbnd : ∀ r ∈ recs, loB lo (smooth r.1) ∧ hiB hi (smooth r.1))
    (hgood : ∀ r ∈ recs, goodKey r.1 ∧ goodVal r.2)
    (hlo : loB lo (smooth k)) (hhi : hiB hi (smooth k)) :
    (∃ n, insertR limI limL k v (f + 1) (.leaf recs) = some (n, none) ∧ WF lo hi n ∧
      n.height ≤ 1 ∧ (flattenT n).Perm ((k, v) :: recs)) ∨
    (∃ n sep rn, insertR limI limL k v (f + 1) (.leaf recs) = some (n, some (sep, rn)) ∧
      WF lo (some sep) n ∧ WF (some sep) hi rn ∧ goodKey sep ∧ loB lo sep ∧ hiB hi sep ∧
      n.height ≤ 1 ∧ rn.height ≤ 1 ∧
      (flattenT n ++ flattenT rn).Perm ((k, v) :: recs)) := by
  have hmne : recs.map Prod.fst ≠ [] := by
    intro habs
    exact hne (by simpa using habs)
  obtain ⟨i, hilen, hio, hp2, hp3⟩ :=
    indexOf_props true (recs.map Prod.fst) k hmne (sortedR_of_leaf recs hsort)
  rw [List.length_map] at hilen
  have hcmp : ∀ j, j < recs.length →
      cmpAt true (recs.map Prod.fst) (smooth k) j
        = cmpK (smooth k) (smooth (recs.getD j ([], [])).1) := by
    intro j hj
    unfold cmpAt
    rw [if_pos rfl, getD_map_lt Prod.fst recs j ([], []) [] hj]
  set cr := cmpAt true (recs.map Prod.fst) (smooth k) i with hcr_def
  set pos := if crIsLe cr then i else i + 1 with hpos_def
  have hpos_le : pos ≤ recs.length := by
    rw [hpos_def]
    by_cases h : crIsLe cr <;> simp [h] <;> omega
  have hA : ∀ j, j < pos → cmpK (smooth (recs.getD j ([], [])).1) (smooth k) ≠ .gt := by
    intro j hj habs
    rw [cmpK_gt_iff_lt] at habs
    have hjlen : j < recs.length := by omega
    rcases Nat.lt_or_ge j i with hji | hji
    · exact hp2 j hji (by rw [hcmp j hjlen]; exact habs)
    · have hji2 : j = i := by
        by_cases h : crIsLe cr
        · rw [hpos_def, if_pos h] at hj; omega
        · rw [hpos_def, if_neg h] at hj; omega
      subst hji2
      by_cases h : crIsLe cr
      · rw [hpos_def, if_pos h] at hj; omega
      · have hgt : cr = .gt := (crIsLe_false_iff cr).mp (by simpa using h)
        have hx : cmpK (smooth k) (smooth (recs.getD j ([], [])).1) = .gt := by
          rw [← hcmp j hjlen, ← hcr_def]
          exact hgt
        rw [hx] at habs
        cases habs
  have hB : ∀ j, pos ≤ j → j < recs.length →
      cmpK (smooth k) (smooth (recs.getD j ([], [])).1) ≠ .gt := by
    intro j hj1 hj2
    rcases Nat.lt_or_ge i j with hij | hij
    · have h3 := hp3 j hij (by rw [List.length_map]; exact hj2)
      rw [hcmp j hj2] at h3
      exact h3
    · have hji : j = i := by
        by_cases h : crIsLe cr
        · rw [hpos_def, if_pos h] at hj1; omega
        · rw [hpos_def, if_neg h] at hj1; omega
      subst hji
      by_cases h : crIsLe cr
      · have hcrne : cr ≠ .gt := (crIsLe_true_iff cr).mp h
        rw [← hcmp j hj2, ← hcr_def]
        exact hcrne
      · rw [hpos_def, if_neg h] at hj1; omega
  set recs1 := listInsertAt pos (k, v) recs with hrecs1_def
  have hlen1 : recs1.length = recs.length + 1 := listInsertAt_length pos (k, v) recs hpos_le
  have hsort1 : sortedIdx (fun r => smooth r.1) ([], []) recs1 :=
    sortedIdx_insert (fun r => smooth r.1) ([], []) recs (k, v) pos hpos_le hsort hA hB
  have hmem1 : ∀ r ∈ recs1, r = (k, v) ∨ r ∈ recs := by
    intro r hr
    exact mem_listInsertAt pos (k, v) r recs hr
  have hbnd1 : ∀ r ∈ recs1, loB lo (smooth r.1) ∧ hiB hi (smooth r.1) := by
    intro r hr
    rcases hmem1 r hr with h | h
    · rw [h]; exact ⟨hlo, hhi⟩
    · exact hbnd r h
  have hgood1 : ∀ r ∈ recs1, goodKey r.1 ∧ goodVal r.2 := by
    intro r hr
    rcases hmem1 r hr with h | h
    · rw [h]; exact ⟨hk, hv⟩
    · exact hgood r h
  have hne1 : recs1 ≠ [] := by
    intro habs
    rw [habs] at hlen1
    simp at hlen1
  have hperm1 : recs1.Perm ((k, v) :: recs) := listInsertAt_perm pos (k, v) recs
  rw [insertR_leaf_eq limI limL k v f recs i cr hio]
  dsimp only
  rw [← hpos_def, ← hrecs1_def]
  by_cases hsplit : recs1.length > 1 ∧ (TNode.leaf recs1).size > limL
  · right
    rw [if_pos hsplit]
    set dv := recs1.length / 2 with hdv_def
    have hdv1 : 1 ≤ dv := by omega
    have hdvlt : dv < recs1.length := by omega
    set sep := smooth (recs1.getD (dv - 1) ([], [])).1 with hsep_def
    have hdvmem : recs1.getD (dv - 1) ([], []) ∈ recs1 := by
      rw [List.getD_eq_getElem _ _ (by omega : dv - 1 < recs1.length)]
      exact List.getElem_mem _
    refine ⟨.leaf (recs1.take dv), sep, .leaf (recs1.drop dv), rfl, ?_, ?_, ?_, ?_, ?_,
      by simp [TNode.height], by simp [TNode.height], ?_⟩
    · refine WF.leaf lo (some sep) (recs1.take dv) ?_ (sortedIdx_take _ _ _ _ hsort1) ?_ ?_
      · intro habs
        have : (recs1.take dv).length = 0 := by rw [habs]; rfl
        rw [List.length_take] at this
        omega
      · intro r hr
        obtain ⟨j, hj, hjeq⟩ := List.getElem_of_mem hr
        rw [List.length_take] at hj
        have hj2 : j < dv := by omega
        have hj3 : j < recs1.length := by omega
        have hreq : r = recs1.getD j ([], []) := by
          rw [← getD_take dv j recs1 ([], []) hj2, List.getD_eq_getElem _ _ (by
            rw [List.length_take]; omega), hjeq]
        constructor
        · rw [hreq]
          exact (hbnd1 _ (by rw [hreq] at hr; exact List.mem_of_mem_take hr)).1
        · rw [hsep_def, hreq]
          show cmpK (smooth (recs1.getD j ([], [])).1) (smooth (recs1.getD (dv - 1) ([], [])).1) ≠ .gt
          rcases Nat.lt_or_ge j (dv - 1) with hc | hc
          · exact hsort1 (dv - 1) (by omega) j hc
          · have : j = dv - 1 := by omega
            rw [this, cmpK_refl]
            simp
      · intro r hr
        exact hgood1 r (List.mem_of_mem_take hr)
    · refine WF.leaf (some sep) hi (recs1.drop dv) ?_ (sortedIdx_drop _ _ _ _ hsort1) ?_ ?_
      · intro habs
        have : (recs1.drop dv).length = 0 := by rw [habs]; rfl
        rw [List.length_drop] at this
        omega
      · intro r hr
        obtain ⟨j, hj, hjeq⟩ := List.getElem_of_mem hr
        rw [List.length_drop] at hj
        have hreq : r = recs1.getD (dv + j) ([], []) := by
          rw [← getD_drop dv j recs1 ([], []), List.getD_eq_getElem _ _ (by
            rw [List.length_drop]; omega), hjeq]
        constructor
        · rw [hsep_def, hreq]
          show cmpK (smooth (recs1.getD (dv - 1) ([], [])).1)
            (smooth (recs1.getD (dv + j) ([], [])).1) ≠ .gt
          exact hsort1 (dv + j) (by omega) (dv - 1) (by omega)
        · rw [hreq]
          exact (hbnd1 _ (by rw [hreq] at hr; exact List.mem_of_mem_drop hr)).2
      · intro r hr
        exact hgood1 r (List.mem_of_mem_drop hr)
    · rw [hsep_def]
      exact goodKey_smooth _ (hgood1 _ hdvmem).1
    · rw [hsep_def]
      exact (hbnd1 _ hdvmem).1
    · rw [hsep_def]
      exact (hbnd1 _ hdvmem).2
    · show (recs1.take dv ++ recs1.drop dv).Perm ((k, v) :: recs)
      rw [List.take_append_drop]
      exact hperm1
  · left
    rw [if_neg hsplit]
    refine ⟨.leaf recs1, rfl, WF.leaf lo hi recs1 hne1 hsort1 hbnd1 hgood1,
      by simp [TNode.height], ?_⟩
    show recs1.Perm ((k, v) :: recs)
    exact hperm1

theorem perm_mid_helper {α : Type} (A B X Y : List α) (x : α) (h : X.Perm (x :: Y)) :
    (A ++ (X ++ B)).Perm (x :: (A ++ (Y ++ B))) := by
  refine ((h.append_right B).append_left A).trans ?_
  rw [List.cons_append]
  exact List.perm_middle

/-- The walk of `Tree::insert` below the root preserves the tree
invariant: on a well-formed subtree whose bounds admit the smoothed key,
`insertR` returns a well-formed subtree — or a split pair around an
in-bounds separator — holding exactly the old records plus `(k, v)`,
without growing the height. -/
theorem insertR_WF (limI limL : Nat) (k : Key) (v : Value) (hk : goodKey k) (hv : goodVal v) :
    ∀ fuel (t : TNode) (lo hi : Option Key), WF lo hi t → t.height ≤ fuel →
      loB lo (smooth k) → hiB hi (smooth k) →
      (∃ n, insertR limI limL k v fuel t = some (n, none) ∧ WF lo hi n ∧
        n.height ≤ t.height ∧ (flattenT n).Perm ((k, v) :: flattenT t)) ∨
      (∃ n sep rn, insertR limI limL k v fuel t = some (n, some (sep, rn)) ∧
        WF lo (some sep) n ∧ WF (some sep) hi rn ∧ goodKey sep ∧ loB lo sep ∧ hiB hi sep ∧
        n.height ≤ t.height ∧ rn.height ≤ t.height ∧
        (flattenT n ++ flattenT rn).Perm ((k, v) :: flattenT t)) := by
  intro fuel
  induction fuel with
  | zero =>
    intro t lo hi hwf hh hlo hhi
    exact absurd hh (by have := TNode.height_pos t; omega)
  | succ f ih =>
    intro t lo hi hwf hh hlo hhi
    cases hwf with
    | leaf lo hi recs hne hsort hbnd hgood =>
      rcases insertR_leaf_WF limI limL k v hk hv f recs lo hi hne hsort hbnd hgood hlo hhi with
        ⟨n, h1, h2, h3, h4⟩ | ⟨n, sep, rn, h1, h2, h3, h4, h5, h6, h7, h8, h9⟩
      · exact Or.inl ⟨n, h1, h2, by simpa [TNode.height] using h3,
          by simpa [flattenT] using h4⟩
      · exact Or.inr ⟨n, sep, rn, h1, h2, h3, h4, h5, h6,
          by simpa [TNode.height] using h7, by simpa [TNode.height] using h8,
          by simpa [flattenT] using h9⟩
    | index lo hi recs children hne hclen hgoodK hsepB hsortI hkids =>
      have hhk : heightK children ≤ f := by
        have hx : (TNode.index recs children).height = 1 + heightK children := by
          simp [TNode.height]
        omega
      have hrlen_pos : recs.length ≠ 0 := fun habs => hne (List.eq_nil_of_length_eq_zero habs)
      obtain ⟨i, hilen, hio, hp2, hp3⟩ :=
        indexOf_props false recs k hne (sortedR_of_index recs hsortI)
      have hcmp : ∀ j, cmpAt false recs (smooth k) j = cmpK (smooth k) (recs.getD j []) := by
        intro j
        rw [cmpAt_rKey]
        rfl
      set cr := cmpAt false recs (smooth k) i with hcr_def
      set ci := if crIsLe cr then i else i + 1 with hci_def
      have hci_le : ci ≤ recs.length := by
        rw [hci_def]
        by_cases h : crIsLe cr <;> simp [h] <;> omega
      have hci_lt : ci < children.length := by rw [hclen]; omega
      have hget : children.get? ci = some (children.getD ci (.leaf [])) :=
        get?_eq_getD children ci (.leaf []) hci_lt
      have hclo : loB (sepLo lo recs ci) (smooth k) := by
        unfold sepLo
        by_cases h0 : ci = 0
        · rw [if_pos h0]; exact hlo
        · rw [if_neg h0]
          show cmpK (recs.getD (ci - 1) []) (smooth k) ≠ .gt
          by_cases h : crIsLe cr
          · have hcieq : ci = i := by rw [hci_def, if_pos h]
            intro habs
            rw [cmpK_gt_iff_lt] at habs
            exact hp2 (ci - 1) (by omega) (by rw [hcmp (ci - 1)]; exact habs)
          · have hcieq : ci = i + 1 := by rw [hci_def, if_neg h]
            have hgt : cr = .gt := (crIsLe_false_iff cr).mp (by simpa using h)
            have hx : cmpK (smooth k) (recs.getD i []) = .gt := by
              rw [← hcmp i, ← hcr_def]; exact hgt
            rw [cmpK_gt_iff_lt] at hx
            have hce : ci - 1 = i := by omega
            rw [hce, hx]
            simp
      have hchi : hiB (sepHi hi recs ci) (smooth k) := by
        unfold sepHi
        by_cases h0 : ci = recs.length
        · rw [if_pos h0]; exact hhi
        · rw [if_neg h0]
          show cmpK (smooth k) (recs.getD ci []) ≠ .gt
          by_cases h : crIsLe cr
          · have hcieq : ci = i := by rw [hci_def, if_pos h]
            have hcrne : cr ≠ .gt := (crIsLe_true_iff cr).mp h
            rw [hcieq, ← hcmp i, ← hcr_def]
            exact hcrne
          · have hcieq : ci = i + 1 := by rw [hci_def, if_neg h]
            have h3 := hp3 ci (by omega) (by omega)
            rw [hcmp ci] at h3
            exact h3
      have hchild_wf : WF (sepLo lo recs ci) (sepHi hi recs ci) (children.getD ci (.leaf [])) :=
        hkids ci hci_lt
      have hchild_mem : children.getD ci (.leaf []) ∈ children := by
        rw [List.getD_eq_getElem _ _ hci_lt]
        exact List.getElem_mem hci_lt
      have hchild_h : (children.getD ci (.leaf [])).height ≤ f :=
        le_trans (height_mem_le _ children hchild_mem) hhk
      have hstep := insertR_index_eq limI limL k v f recs children i cr
        (children.getD ci (.leaf [])) hio (by rw [← hci_def]; exact hget)
      rw [← hci_def] at hstep
      rcases ih (children.getD ci (.leaf [])) (sepLo lo recs ci) (sepHi hi recs ci)
          hchild_wf hchild_h hclo hchi with
        ⟨c1, hrec, hwf1, hh1, hpermC⟩ |
        ⟨c1, sep2, rn, hrec, hwfL, hwfR, hgsep, hlosep, hhisep, hh1, hh2, hpermC⟩
      · -- the child absorbed the insertion: replace it in place
        rw [hrec] at hstep
        dsimp only at hstep
        left
        refine ⟨.index recs (children.set ci c1), hstep, ?_, ?_, ?_⟩
        · refine WF.index lo hi recs (children.set ci c1) hne
            (by rw [List.length_set]; exact hclen) hgoodK hsepB hsortI ?_
          intro j hj
          rw [List.length_set] at hj
          by_cases hjc : j = ci
          · subst hjc
            rw [getD_set_eq _ _ _ _ (by omega)]
            exact hwf1
          · rw [getD_set_ne _ _ _ _ _ hjc]
            exact hkids j hj
        · have h1 := heightK_set_le children ci c1
          have h2 : c1.height ≤ heightK children :=
            le_trans hh1 (height_mem_le _ children hchild_mem)
          simp only [TNode.height]
          omega
        · have e1 : flattenT (TNode.index recs (children.set ci c1)) =
              flattenK (children.take ci) ++
                (flattenT c1 ++ flattenK (children.drop (ci + 1))) := by
            show flattenK (children.set ci c1) = _
            rw [set_eq_take_cons_drop ci c1 children hci_lt, flattenK_append, flattenK_cons]
          have e2 : flattenT (TNode.index recs children) =
              flattenK (children.take ci) ++
                (flattenT (children.getD ci (.leaf [])) ++ flattenK (children.drop (ci + 1))) := by
            show flattenK children = _
            conv_lhs => rw [take_getD_drop ci children (.leaf []) hci_lt]
            rw [flattenK_append, flattenK_cons]
          rw [e1, e2]
          exact perm_mid_helper _ _ _ _ _ hpermC
      · -- the child split: absorb separator and right sibling
        rw [hrec] at hstep
        dsimp only at hstep
        set recs1 := listInsertAt ci sep2 recs with hrecs1_def
        set children1 := listInsertAt (ci + 1) rn (children.set ci c1) with hchildren1_def
        have hlenr1 : recs1.length = recs.length + 1 := by
          rw [hrecs1_def]
          exact listInsertAt_length ci sep2 recs hci_le
        have hlenc1 : children1.length = children.length + 1 := by
          rw [hchildren1_def,
            listInsertAt_length (ci + 1) rn (children.set ci c1)
              (by rw [List.length_set]; omega), List.length_set]
        have hlen_c1r1 : children1.length = recs1.length + 1 := by omega
        have hmem_r1 : ∀ s ∈ recs1, s = sep2 ∨ s ∈ recs := by
          intro s hs
          rw [hrecs1_def] at hs
          exact mem_listInsertAt ci sep2 s recs hs
        have hlo_sep2 : loB lo sep2 := by
          by_cases h0 : ci = 0
          · unfold sepLo at hlosep
            rw [if_pos h0] at hlosep
            exact hlosep
          · unfold sepLo at hlosep
            rw [if_neg h0] at hlosep
            have hm : recs.getD (ci - 1) [] ∈ recs := by
              rw [List.getD_eq_getElem _ _ (by omega : ci - 1 < recs.length)]
              exact List.getElem_mem _
            exact loB_trans (hsepB _ hm).1 hlosep
        have hhi_sep2 : hiB hi sep2 := by
          by_cases h0 : ci = recs.length
          · unfold sepHi at hhisep
            rw [if_pos h0] at hhisep
            exact hhisep
          · unfold sepHi at hhisep
            rw [if_neg h0] at hhisep
            have hm : recs.getD ci [] ∈ recs := by
              rw [List.getD_eq_getElem _ _ (by omega : ci < recs.length)]
              exact List.getElem_mem _
            exact hiB_trans hhisep (hsepB _ hm).2
        have hgood_r1 : ∀ s ∈ recs1, goodKey s := by
          intro s hs
          rcases hmem_r1 s hs with h | h
          · rw [h]; exact hgsep
          · exact hgoodK s h
        have hbnd_r1 : ∀ s ∈ recs1, loB lo s ∧ hiB hi s := by
          intro s hs
          rcases hmem_r1 s hs with h | h
          · rw [h]; exact ⟨hlo_sep2, hhi_sep2⟩
          · exact hsepB s h
        have hne_r1 : recs1 ≠ [] := by
          intro habs
          rw [habs] at hlenr1
          simp at hlenr1
        have hsepLo_ne : ci ≠ 0 → cmpK (recs.getD (ci - 1) []) sep2 ≠ .gt := by
          intro h0
          have hx := hlosep
          unfold sepLo at hx
          rw [if_neg h0] at hx
          exact hx
        have hsepHi_ne : ci ≠ recs.length → cmpK sep2 (recs.getD ci []) ≠ .gt := by
          intro h0
          have hx := hhisep
          unfold sepHi at hx
          rw [if_neg h0] at hx
          exact hx
        have hsort_r1 : sortedIdx id [] recs1 := by
          rw [hrecs1_def]
          refine sortedIdx_insert id [] recs sep2 ci hci_le hsortI ?_ ?_
          · intro j hj
            show cmpK (recs.getD j []) sep2 ≠ .gt
            have h0 : ci ≠ 0 := by omega
            rcases Nat.lt_or_ge j (ci - 1) with hc | hc
            · exact cmpK_le_trans (hsortI (ci - 1) (by omega) j hc) (hsepLo_ne h0)
            · have hje : j = ci - 1 := by omega
              rw [hje]
              exact hsepLo_ne h0
          · intro j hj1 hj2
            show cmpK sep2 (recs.getD j []) ≠ .gt
            have h0 : ci ≠ recs.length := by omega
            rcases Nat.lt_or_ge ci j with hc | hc
            · exact cmpK_le_trans (hsepHi_ne h0) (hsortI j hj2 ci hc)
            · have hje : j = ci := by omega
              rw [hje]
              exact hsepHi_ne h0
        have hgetD_lt : ∀ i2, i2 < ci →
            children1.getD i2 (.leaf []) = children.getD i2 (.leaf []) := by
          intro i2 h
          rw [hchildren1_def,
            getD_listInsertAt_lt _ _ _ _ (by rw [List.length_set]; omega) i2 (by omega),
            getD_set_ne _ _ _ _ _ (by omega)]
        have hgetD_ci : children1.getD ci (.leaf []) = c1 := by
          rw [hchildren1_def,
            getD_listInsertAt_lt _ _ _ _ (by rw [List.length_set]; omega) ci (by omega),
            getD_set_eq _ _ _ _ (by omega)]
        have hgetD_ci1 : children1.getD (ci + 1) (.leaf []) = rn := by
          rw [hchildren1_def, getD_listInsertAt_self _ _ _ _ (by rw [List.length_set]; omega)]
        have hgetD_gt : ∀ i2, ci + 1 < i2 →
            children1.getD i2 (.leaf []) = children.getD (i2 - 1) (.leaf []) := by
          intro i2 h
          rw [hchildren1_def,
            getD_listInsertAt_gt _ _ _ _ (by rw [List.length_set]; omega) i2 h,
            getD_set_ne _ _ _ _ _ (by omega)]
        have hgetDr_lt : ∀ j, j < ci → recs1.getD j [] = recs.getD j [] := by
          intro j h
          rw [hrecs1_def]
          exact getD_listInsertAt_lt ci sep2 recs [] hci_le j h
        have hgetDr_ci : recs1.getD ci [] = sep2 := by
          rw [hrecs1_def]
          exact getD_listInsertAt_self ci sep2 recs [] hci_le
        have hgetDr_gt : ∀ j, ci < j → recs1.getD j [] = recs.getD (j - 1) [] := by
          intro j h
          rw [hrecs1_def]
          exact getD_listInsertAt_gt ci sep2 recs [] hci_le j h
        have hkids1 : ∀ i2, i2 < children1.length →
            WF (sepLo lo recs1 i2) (sepHi hi recs1 i2) (children1.getD i2 (.leaf [])) := by
          intro i2 hi2
          rw [hlenc1] at hi2
          rcases Nat.lt_trichotomy i2 ci with hc2 | hc2 | hc2
          · rw [hgetD_lt i2 hc2]
            have heqLo : sepLo lo recs1 i2 = sepLo lo recs i2 := by
              unfold sepLo
              by_cases h0 : i2 = 0
              · simp [h0]
              · rw [if_neg h0, if_neg h0, hgetDr_lt (i2 - 1) (by omega)]
            have heqHi : sepHi hi recs1 i2 = sepHi hi recs i2 := by
              unfold sepHi
              rw [if_neg (by omega : i2 ≠ recs1.length), if_neg (by omega : i2 ≠ recs.length),
                hgetDr_lt i2 hc2]
            rw [heqLo, heqHi]
            exact hkids i2 (by omega)
          · subst hc2
            rw [hgetD_ci]
            have heqLo : sepLo lo recs1 ci = sepLo lo recs ci := by
              unfold sepLo
              by_cases h0 : ci = 0
              · simp [h0]
              · rw [if_neg h0, if_neg h0, hgetDr_lt (ci - 1) (by omega)]
            have heqHi : sepHi hi recs1 ci = some sep2 := by
              unfold sepHi
              rw [if_neg (by omega : ci ≠ recs1.length), hgetDr_ci]
            rw [heqLo, heqHi]
            exact hwfL
          · rcases Nat.lt_or_ge (ci + 1) i2 with hgt | hle
            · rw [hgetD_gt i2 hgt]
              have heqLo : sepLo lo recs1 i2 = sepLo lo recs (i2 - 1) := by
                unfold sepLo
                rw [if_neg (by omega : i2 ≠ 0), if_neg (by omega : i2 - 1 ≠ 0),
                  hgetDr_gt (i2 - 1) (by omega)]
              have heqHi : sepHi hi recs1 i2 = sepHi hi recs (i2 - 1) := by
                unfold sepHi
                by_cases h0 : i2 = recs1.length
                · rw [if_pos h0, if_pos (by omega : i2 - 1 = recs.length)]
                · rw [if_neg h0, if_neg (by omega : i2 - 1 ≠ recs.length),
                    hgetDr_gt i2 (by omega)]
              rw [heqLo, heqHi]
              exact hkids (i2 - 1) (by omega)
            · have hie : i2 = ci + 1 := by omega
              subst hie
              rw [hgetD_ci1]
              have heqLo : sepLo lo recs1 (ci + 1) = some sep2 := by
                unfold sepLo
                rw [if_neg (by omega : ci + 1 ≠ 0)]
                simp only [Nat.add_sub_cancel]
                rw [hgetDr_ci]
              have heqHi : sepHi hi recs1 (ci + 1) = sepHi hi recs ci := by
                unfold sepHi
                by_cases h0 : ci = recs.length
                · rw [if_pos (by omega : ci + 1 = recs1.length), if_pos h0]
                · rw [if_neg (by omega : ci + 1 ≠ recs1.length), if_neg h0,
                    hgetDr_gt (ci + 1) (by omega)]
                  simp only [Nat.add_sub_cancel]
              rw [heqLo, heqHi]
              exact hwfR
        have hflat1 : flattenK children1 =
            flattenK (children.take ci) ++
              ((flattenT c1 ++ flattenT rn) ++ flattenK (children.drop (ci + 1))) := by
          rw [hchildren1_def, flattenK_listInsertAt, set_eq_take_cons_drop ci c1 children hci_lt]
          have hlt : (children.take ci).length = ci := by rw [List.length_take]; omega
          have e1 : (children.take ci ++ c1 :: children.drop (ci + 1)).take (ci + 1) =
              children.take ci ++ [c1] := by
            rw [show ci + 1 = (children.take ci).length + 1 by rw [hlt], List.take_append]
            simp
          have e2 : (children.take ci ++ c1 :: children.drop (ci + 1)).drop (ci + 1) =
              children.drop (ci + 1) := by
            rw [show ci + 1 = (children.take ci).length + 1 by rw [hlt], List.drop_append]
            simp
          rw [e1, e2, flattenK_append]
          simp [flattenK, List.append_assoc]
        have hflat_old : flattenK children =
            flattenK (children.take ci) ++
              (flattenT (children.getD ci (.leaf [])) ++ flattenK (children.drop (ci + 1))) := by
          conv_lhs => rw [take_getD_drop ci children (.leaf []) hci_lt]
          rw [flattenK_append, flattenK_cons]
        have hpermAll : (flattenK children1).Perm ((k, v) :: flattenK children) := by
          rw [hflat1, hflat_old]
          exact perm_mid_helper _ _ _ _ _ hpermC
        have hhc1 : heightK children1 ≤ heightK children := by
          have h1 := heightK_listInsertAt_le (ci + 1) rn (children.set ci c1)
          have h2 := heightK_set_le children ci c1
          have h3 : c1.height ≤ heightK children :=
            le_trans hh1 (height_mem_le _ children hchild_mem)
          have h4 : rn.height ≤ heightK children :=
            le_trans hh2 (height_mem_le _ children hchild_mem)
          rw [hchildren1_def]
          omega
        by_cases hsplit : (TNode.index recs1 children1).size > limI ∧ recs1.length ≥ 3
        · rw [if_pos hsplit] at hstep
          right
          set dv := recs1.length / 2 + 1 with hdv_def
          have hL3 : recs1.length ≥ 3 := hsplit.2
          have hdv1 : 2 ≤ dv := by omega
          have hdvlt : dv < recs1.length := by omega
          have hprecord : (recs1.take dv).getLast?.getD [] = recs1.getD (dv - 1) [] :=
            getLast_take recs1 dv [] (by omega) (by omega)
          rw [hprecord] at hstep
          set precord := recs1.getD (dv - 1) [] with hprec_def
          have hprec_mem : precord ∈ recs1 := by
            rw [hprec_def, List.getD_eq_getElem _ _ (by omega : dv - 1 < recs1.length)]
            exact List.getElem_mem _
          refine ⟨.index (recs1.take (dv - 1)) (children1.take dv), precord,
            .index (recs1.drop dv) (children1.drop dv), hstep, ?_, ?_, hgood_r1 _ hprec_mem,
            (hbnd_r1 _ hprec_mem).1, (hbnd_r1 _ hprec_mem).2, ?_, ?_, ?_⟩
          · refine WF.index lo (some precord) (recs1.take (dv - 1)) (children1.take dv)
              ?_ ?_ ?_ ?_ (sortedIdx_take _ _ _ _ hsort_r1) ?_
            · intro habs
              have hx : (recs1.take (dv - 1)).length = 0 := by rw [habs]; rfl
              rw [List.length_take] at hx
              omega
            · rw [List.length_take, List.length_take]
              omega
            · intro s hs
              exact hgood_r1 s (List.mem_of_mem_take hs)
            · intro s hs
              obtain ⟨j, hj, hjeq⟩ := List.getElem_of_mem hs
              rw [List.length_take] at hj
              have hj2 : j < dv - 1 := by omega
              have hseq : s = recs1.getD j [] := by
                rw [← getD_take (dv - 1) j recs1 [] hj2,
                  List.getD_eq_getElem _ _ (by rw [List.length_take]; omega), hjeq]
              refine ⟨(hbnd_r1 s (List.mem_of_mem_take hs)).1, ?_⟩
              show cmpK s precord ≠ .gt
              rw [hseq, hprec_def]
              exact hsort_r1 (dv - 1) (by omega) j hj2
            · intro i2 hi2
              rw [List.length_take] at hi2
              have hi2dv : i2 < dv := by omega
              have hi2len : i2 < children1.length := by omega
              rw [getD_take dv i2 children1 (.leaf []) hi2dv]
              have heqLo : sepLo lo (recs1.take (dv - 1)) i2 = sepLo lo recs1 i2 := by
                unfold sepLo
                by_cases h0 : i2 = 0
                · simp [h0]
                · rw [if_neg h0, if_neg h0, getD_take (dv - 1) (i2 - 1) recs1 [] (by omega)]
              have heqHi : sepHi (some precord) (recs1.take (dv - 1)) i2 = sepHi hi recs1 i2 := by
                unfold sepHi
                have hlt : (recs1.take (dv - 1)).length = dv - 1 := by
                  rw [List.length_take]; omega
                by_cases h0 : i2 = dv - 1
                · rw [if_pos (by rw [hlt]; omega), if_neg (by omega : i2 ≠ recs1.length),
                    hprec_def, h0]
                · rw [if_neg (by rw [hlt]; omega), if_neg (by omega : i2 ≠ recs1.length),
                    getD_take (dv - 1) i2 recs1 [] (by omega)]
              rw [heqLo, heqHi]
              exact hkids1 i2 hi2len
          · refine WF.index (some precord) hi (recs1.drop dv) (children1.drop dv)
              ?_ ?_ ?_ ?_ (sortedIdx_drop _ _ _ _ hsort_r1) ?_
            · intro habs
              have hx : (recs1.drop dv).length = 0 := by rw [habs]; rfl
              rw [List.length_drop] at hx
              omega
            · rw [List.length_drop, List.length_drop]
              omega
            · intro s hs
              exact hgood_r1 s (List.mem_of_mem_drop hs)
            · intro s hs
              obtain ⟨j, hj, hjeq⟩ := List.getElem_of_mem hs
              rw [List.length_drop] at hj
              have hseq : s = recs1.getD (dv + j) [] := by
                rw [← getD_drop dv j recs1 [],
                  List.getD_eq_getElem _ _ (by rw [List.length_drop]; omega), hjeq]
              refine ⟨?_, (hbnd_r1 s (List.mem_of_mem_drop hs)).2⟩
              show cmpK precord s ≠ .gt
              rw [hseq, hprec_def]
              exact hsort_r1 (dv + j) (by omega) (dv - 1) (by omega)
            · intro i2 hi2
              rw [List.length_drop] at hi2
              rw [getD_drop dv i2 children1 (.leaf [])]
              have heqLo : sepLo (some precord) (recs1.drop dv) i2 = sepLo lo recs1 (dv + i2) := by
                unfold sepLo
                by_cases h0 : i2 = 0
                · subst h0
                  rw [if_pos rfl, if_neg (by omega : ¬(dv + 0 = 0)), hprec_def]
                · rw [if_neg h0, if_neg (by omega : ¬(dv + i2 = 0)), getD_drop dv (i2 - 1) recs1 []]
                  have hx : dv + (i2 - 1) = dv + i2 - 1 := by omega
                  rw [hx]
              have heqHi : sepHi hi (recs1.drop dv) i2 = sepHi hi recs1 (dv + i2) := by
                unfold sepHi
                rw [List.length_drop]
                by_cases h0 : i2 = recs1.length - dv
                · rw [if_pos h0, if_pos (by omega : dv + i2 = recs1.length)]
                · rw [if_neg h0, if_neg (by omega : ¬(dv + i2 = recs1.length)),
                    getD_drop dv i2 recs1 []]
              rw [heqLo, heqHi]
              exact hkids1 (dv + i2) (by omega)
          · have h1 := heightK_take_le dv children1
            simp only [TNode.height]
            omega
          · have h1 := heightK_drop_le dv children1
            simp only [TNode.height]
            omega
          · show (flattenK (children1.take dv) ++ flattenK (children1.drop dv)).Perm
              ((k, v) :: flattenK children)
            rw [flattenK_take_drop]
            exact hpermAll
        · rw [if_neg hsplit] at hstep
          left
          refine ⟨.index recs1 children1, hstep, ?_, ?_, hpermAll⟩
          · exact WF.index lo hi recs1 children1 hne_r1 hlen_c1r1 hgood_r1 hbnd_r1
              hsort_r1 hkids1
          · simp only [TNode.height]
            omega

theorem WF_recordsLen_pos (lo hi : Option Key) (t : TNode) (h : WF lo hi t) :
    t.recordsLen ≠ 0 := by
  cases h with
  | leaf lo hi recs hne hsort hbnd hgood =>
    intro habs
    simp only [TNode.recordsLen] at habs
    exact hne (List.eq_nil_of_length_eq_zero habs)
  | index lo hi recs children hne hclen hgoodK hsepB hsortI hkids =>
    intro habs
    simp only [TNode.recordsLen] at habs
    exact hne (List.eq_nil_of_length_eq_zero habs)

/-- One `Tree::insert` on a tree satisfying the build invariant: the new
root is well-formed and holds the previous records plus the new pair. -/
theorem BelTree_insert_step (t : BelTree) (fuel : Nat) (p : Key × Value)
    (hp : goodKey p.1 ∧ goodVal p.2) (acc : List (Key × Value))
    (hinv : (t.root = .leaf [] ∧ acc = []) ∨
      (WF none none t.root ∧ (flattenT t.root).Perm acc ∧ t.root.height ≤ acc.length))
    (hfuel : acc.length + 1 ≤ fuel) :
    ∃ t1, t.insert fuel p.1 p.2 = some t1 ∧
      t1.indexSizeLimit = t.indexSizeLimit ∧ t1.leafSizeLimit = t.leafSizeLimit ∧
      WF none none t1.root ∧ (flattenT t1.root).Perm (acc ++ [p]) ∧
      t1.root.height ≤ acc.length + 1 := by
  by_cases h0 : t.root.recordsLen = 0
  · rcases hinv with ⟨hroot, hacc⟩ | ⟨hwf, _, _⟩
    · refine ⟨{ t with root := .leaf [(p.1, p.2)] }, ?_, rfl, rfl, ?_, ?_, ?_⟩
      · unfold BelTree.insert
        rw [if_pos h0, hroot]
        rfl
      · refine WF.leaf none none [(p.1, p.2)] (by simp) ?_ ?_ ?_
        · intro j hj i hi
          simp only [List.length_cons, List.length_nil] at hj
          omega
        · intro r hr
          exact ⟨trivial, trivial⟩
        · intro r hr
          simp only [List.mem_singleton] at hr
          rw [hr]
          exact hp
      · rw [hacc]
        simp [flattenT]
      · simp [TNode.height]
    · exact absurd h0 (WF_recordsLen_pos none none t.root hwf)
  · rcases hinv with ⟨hroot, _⟩ | ⟨hwf, hperm, hh⟩
    · rw [hroot] at h0
      simp [TNode.recordsLen] at h0
    · have hh2 : t.root.height ≤ fuel := by omega
      rcases insertR_WF t.indexSizeLimit t.leafSizeLimit p.1 p.2 hp.1 hp.2 fuel t.root
          none none hwf hh2 trivial trivial with
        ⟨n, hrec, hwfn, hhn, hpermn⟩ | ⟨n, sep, rn, hrec, hwfL, hwfR, hgsep, _, _, hhn, hhrn, hpermn⟩
      · refine ⟨{ t with root := n }, ?_, rfl, rfl, hwfn, ?_, by
          show n.height ≤ acc.length + 1
          omega⟩
        · unfold BelTree.insert
          rw [if_neg h0, hrec]
        · refine hpermn.trans ?_
          refine (List.Perm.cons p ?_).trans (List.perm_append_singleton p acc).symm
          exact hperm
      · refine ⟨{ t with root := .index [sep] [n, rn] }, ?_, rfl, rfl, ?_, ?_, ?_⟩
        · unfold BelTree.insert
          rw [if_neg h0, hrec]
        · refine WF.index none none [sep] [n, rn] (by simp) (by simp) ?_ ?_ ?_ ?_
          · intro s hs
            simp only [List.mem_singleton] at hs
            rw [hs]
            exact hgsep
          · intro s hs
            exact ⟨trivial, trivial⟩
          · intro j hj i hi
            simp only [List.length_cons, List.length_nil] at hj
            omega
          · intro j hj
            simp only [List.length_cons, List.length_nil] at hj
            interval_cases j
            · have e1 : sepLo none [sep] 0 = none := by simp [sepLo]
              have e2 : sepHi none [sep] 0 = some sep := by simp [sepHi]
              rw [e1, e2]
              exact hwfL
            · have e1 : sepLo none [sep] 1 = some sep := by simp [sepLo]
              have e2 : sepHi none [sep] 1 = none := by simp [sepHi]
              rw [e1, e2]
              exact hwfR
        · have e : flattenT (TNode.index [sep] [n, rn]) = flattenT n ++ flattenT rn := by
            show flattenK [n, rn] = _
            rw [flattenK_cons, flattenK_cons]
            simp [flattenK]
          show (flattenT (TNode.index [sep] [n, rn])).Perm (acc ++ [p])
          rw [e]
          refine hpermn.trans ?_
          refine (List.Perm.cons p ?_).trans (List.perm_append_singleton p acc).symm
          exact hperm
        · show (TNode.index [sep] [n, rn]).height ≤ acc.length + 1
          have e : (TNode.index [sep] [n, rn]).height = 1 + max n.height (max rn.height 0) := by
            simp [TNode.height, heightK]
          rw [e]
          omega

/-- Folding `Tree::insert` over a pair list preserves the build
invariant. -/
theorem buildFold (fuel : Nat) :
    ∀ (ps : List (Key × Value)) (t : BelTree) (acc : List (Key × Value)),
      (∀ p ∈ ps, goodKey p.1 ∧ goodVal p.2) →
      ((t.root = .leaf [] ∧ acc = []) ∨
        (WF none none t.root ∧ (flattenT t.root).Perm acc ∧ t.root.height ≤ acc.length)) →
      acc.length + ps.length ≤ fuel →
      ∃ t2, ps.foldl (fun ot p => ot.bind fun t3 => t3.insert fuel p.1 p.2) (some t) = some t2 ∧
        t2.indexSizeLimit = t.indexSizeLimit ∧ t2.leafSizeLimit = t.leafSizeLimit ∧
        ((t2.root = .leaf [] ∧ acc ++ ps = []) ∨
          (WF none none t2.root ∧ (flattenT t2.root).Perm (acc ++ ps) ∧
            t2.root.height ≤ (acc ++ ps).length)) := by
  intro ps
  induction ps with
  | nil =>
    intro t acc hgood hinv hfuel
    refine ⟨t, rfl, rfl, rfl, ?_⟩
    rw [List.append_nil]
    exact hinv
  | cons p ps2 ih =>
    intro t acc hgood hinv hfuel
    obtain ⟨t1, hins, hlim1, hlim2, hwf1, hperm1, hh1⟩ :=
      BelTree_insert_step t fuel p (hgood p (by simp)) acc hinv (by
        simp only [List.length_cons] at hfuel
        omega)
    have hx : ((some t).bind fun t3 => t3.insert fuel p.1 p.2) = some t1 := hins
    have hstep : (p :: ps2).foldl (fun ot p => ot.bind fun t3 => t3.insert fuel p.1 p.2)
        (some t) = ps2.foldl (fun ot p => ot.bind fun t3 => t3.insert fuel p.1 p.2) (some t1) := by
      rw [List.foldl_cons, hx]
    rw [hstep]
    obtain ⟨t2, hfold, hl1, hl2, hinv2⟩ := ih t1 (acc ++ [p])
      (fun q hq => hgood q (by simp [hq]))
      (Or.inr ⟨hwf1, hperm1, by simpa using hh1⟩)
      (by simp only [List.length_append, List.length_singleton, List.length_cons,
        List.length_nil] at hfuel ⊢; omega)
    refine ⟨t2, hfold, by rw [hl1, hlim1], by rw [hl2, hlim2], ?_⟩
    rcases hinv2 with ⟨ha, hb⟩ | ⟨ha, hb, hc⟩
    · left
      refine ⟨ha, ?_⟩
      rw [List.append_assoc] at hb
      simpa using hb
    · right
      refine ⟨ha, ?_, ?_⟩
      · rw [List.append_assoc] at hb
        simpa using hb
      · rw [List.append_assoc] at hc
        simpa using hc

/-- `buildTree`: repeated insertion from the empty tree yields a
well-formed root carrying exactly the inserted pairs (or the untouched
empty leaf for no input). -/
theorem buildTree_WF (fuel limI limL : Nat) (ps : List (Key × Value))
    (hgood : ∀ p ∈ ps, goodKey p.1 ∧ goodVal p.2) (hfuel : ps.length ≤ fuel) :
    ∃ t : BelTree, buildTree fuel limI limL ps = some t ∧
      t.indexSizeLimit = limI ∧ t.leafSizeLimit = limL ∧
      ((t.root = .leaf [] ∧ ps = []) ∨
        (WF none none t.root ∧ (flattenT t.root).Perm ps ∧ t.root.height ≤ ps.length)) := by
  obtain ⟨t2, hfold, hl1, hl2, hinv⟩ := buildFold fuel ps (BelTree.new limI limL) []
    hgood (Or.inl ⟨rfl, rfl⟩) (by simpa using hfuel)
  refine ⟨t2, hfold, hl1, hl2, by simpa using hinv⟩

/-! ### Byte-level codec round-trips -/

theorem u32Bytes_length (n : Nat) : (u32Bytes n).length = 4 := rfl

theorem u64Bytes_length (n : Nat) : (u64Bytes n).length = 8 := rfl

theorem u32OfBytes_u32Bytes (n : Nat) (h : n < 2 ^ 32) : u32OfBytes (u32Bytes n) = n := by
  simp only [u32Bytes, u32OfBytes, List.getD_cons_zero, List.getD_cons_succ]
  omega

theorem u64OfBytes_u64Bytes (n : Nat) (h : n < 2 ^ 64) : u64OfBytes (u64Bytes n) = n := by
  simp only [u64Bytes, u64OfBytes, List.getD_cons_zero, List.getD_cons_succ]
  omega

theorem readN_len (n : Nat) (a b : List Nat) (h : a.length = n) :
    readN n (a ++ b) = some (a, b) := by
  subst h
  unfold readN
  rw [if_pos (by simp), List.take_left, List.drop_left]

theorem readN_all (n : Nat) (a : List Nat) (h : a.length = n) : readN n a = some (a, []) := by
  have hx := readN_len n a [] h
  rwa [List.append_nil] at hx

theorem readU32_pre (n : Nat) (rest : List Nat) (h : n < 2 ^ 32) :
    readU32 (u32Bytes n ++ rest) = some (n, rest) := by
  unfold readU32
  rw [readN_len 4 (u32Bytes n) rest (u32Bytes_length n)]
  simp [u32OfBytes_u32Bytes n h]

theorem readU64_pre (n : Nat) (rest : List Nat) (h : n < 2 ^ 64) :
    readU64 (u64Bytes n ++ rest) = some (n, rest) := by
  unfold readU64
  rw [readN_len 8 (u64Bytes n) rest (u64Bytes_length n)]
  simp [u64OfBytes_u64Bytes n h]

theorem parseRecs_leaf_rt : ∀ (recs : List (Key × Value)) (rest : List Nat),
    (∀ r ∈ recs, goodKey r.1 ∧ goodVal r.2) →
    parseRecs true recs.length ((recs.map leafRecBytes).flatten ++ rest) =
      some (recs.map (fun r => (r.1, some r.2)), rest) := by
  intro recs
  induction recs with
  | nil =>
    intro rest hgood
    simp [parseRecs]
  | cons r rs ih =>
    intro rest hgood
    have hk := (hgood r (by simp)).1
    have hv := (hgood r (by simp)).2
    have hshape : ((r :: rs).map leafRecBytes).flatten ++ rest =
        u32Bytes r.1.length ++ (r.1 ++ (u32Bytes r.2.length ++ (r.2 ++
          ((rs.map leafRecBytes).flatten ++ rest)))) := by
      simp [leafRecBytes, List.append_assoc]
    rw [List.length_cons, hshape]
    simp only [parseRecs]
    rw [readU32_pre r.1.length _ hk.2]
    simp only [Option.bind_eq_bind, Option.some_bind]
    rw [readN_len r.1.length r.1 _ rfl]
    simp only [Option.some_bind]
    rw [hk.1]
    simp only [if_true]
    rw [readU32_pre r.2.length _ hv]
    simp only [Option.some_bind]
    rw [readN_len r.2.length r.2 _ rfl]
    simp only [Option.some_bind]
    rw [ih rest (fun q hq => hgood q (by simp [hq]))]
    simp

theorem parseRecs_index_rt : ∀ (ks : List Key) (rest : List Nat),
    (∀ s ∈ ks, goodKey s) →
    parseRecs false ks.length ((ks.map indexRecBytes).flatten ++ rest) =
      some (ks.map (fun s => (s, none)), rest) := by
  intro ks
  induction ks with
  | nil =>
    intro rest hgood
    simp [parseRecs]
  | cons s ss ih =>
    intro rest hgood
    have hk := hgood s (by simp)
    have hshape : ((s :: ss).map indexRecBytes).flatten ++ rest =
        u32Bytes s.length ++ (s ++ ((ss.map indexRecBytes).flatten ++ rest)) := by
      simp [indexRecBytes, List.append_assoc]
    rw [List.length_cons, hshape]
    simp only [parseRecs]
    rw [readU32_pre s.length _ hk.2]
    simp only [Option.bind_eq_bind, Option.some_bind]
    rw [readN_len s.length s _ rfl]
    simp only [Option.some_bind]
    rw [hk.1]
    simp only [if_true]
    rw [ih rest (fun q hq => hgood q (by simp [hq]))]
    simp

theorem parsePtrs_rt : ∀ (qs : List (Nat × Nat)) (rest : List Nat),
    (∀ q ∈ qs, q.1 < 2 ^ 64 ∧ q.2 < 2 ^ 32) →
    parsePtrs qs.length ((qs.map (fun q => u64Bytes q.1 ++ u32Bytes q.2)).flatten ++ rest) =
      some (qs, rest) := by
  intro qs
  induction qs with
  | nil =>
    intro rest hb
    simp [parsePtrs]
  | cons q qs2 ih =>
    intro rest hb
    have hq := hb q (by simp)
    have hshape : ((q :: qs2).map (fun q => u64Bytes q.1 ++ u32Bytes q.2)).flatten ++ rest =
        u64Bytes q.1 ++ (u32Bytes q.2 ++
          ((qs2.map (fun q => u64Bytes q.1 ++ u32Bytes q.2)).flatten ++ rest)) := by
      simp [List.append_assoc]
    rw [List.length_cons, hshape]
    simp only [parsePtrs]
    rw [readU64_pre q.1 _ hq.1]
    simp only [Option.bind_eq_bind, Option.some_bind]
    rw [readU32_pre q.2 _ hq.2]
    simp only [Option.some_bind]
    rw [ih rest (fun p hp => hb p (by simp [hp]))]
    simp

theorem liftValues_map : ∀ (recs : List (Key × Value)),
    liftValues (recs.map (fun r => (r.1, some r.2))) = some recs := by
  intro recs
  induction recs with
  | nil => rfl
  | cons r rs ih =>
    simp [liftValues, ih]

theorem nodeFromBytes_leaf (recs : List (Key × Value)) (a b : Nat)
    (hcnt : recs.length < 2 ^ 32) (hgood : ∀ r ∈ recs, goodKey r.1 ∧ goodVal r.2) :
    ∃ kd, nodeFromBytes (0 :: (u32Bytes recs.length ++ (recs.map leafRecBytes).flatten ++
      u64Bytes a ++ u32Bytes b)) = some
        { isLeaf := true, records := recs.map (fun r => (r.1, some r.2)), kids := kd } := by
  refine ⟨[(u64OfBytes (u64Bytes a), u32OfBytes (u32Bytes b))], ?_⟩
  unfold nodeFromBytes
  simp only [readU8, Option.bind_eq_bind, Option.some_bind]
  have hshape : u32Bytes recs.length ++ (recs.map leafRecBytes).flatten ++
      u64Bytes a ++ u32Bytes b =
      u32Bytes recs.length ++ ((recs.map leafRecBytes).flatten ++
        (u64Bytes a ++ u32Bytes b)) := by
    simp [List.append_assoc]
  rw [hshape, readU32_pre recs.length _ hcnt]
  simp only [Option.some_bind]
  have h0 : (0 == 0) = true := rfl
  rw [h0]
  rw [parseRecs_leaf_rt recs _ hgood]
  simp only [Option.some_bind]
  have hptr : parsePtrs 1 (u64Bytes a ++ u32Bytes b) =
      some ([(u64OfBytes (u64Bytes a), u32OfBytes (u32Bytes b))], []) := by
    simp only [parsePtrs]
    unfold readU64
    rw [readN_len 8 (u64Bytes a) _ (u64Bytes_length a)]
    simp only [Option.map_some', Option.bind_eq_bind, Option.some_bind]
    unfold readU32
    rw [readN_all 4 (u32Bytes b) (u32Bytes_length b)]
    simp only [Option.map_some', Option.some_bind]
  simp only [if_true]
  rw [hptr]
  rfl

theorem nodeFromBytes_index (ks : List Key) (qs : List (Nat × Nat))
    (hcnt : ks.length < 2 ^ 32) (hgood : ∀ s ∈ ks, goodKey s)
    (hqlen : qs.length = ks.length + 1)
    (hqb : ∀ q ∈ qs, q.1 < 2 ^ 64 ∧ q.2 < 2 ^ 32) :
    nodeFromBytes (1 :: (u32Bytes ks.length ++ (ks.map indexRecBytes).flatten ++
      (qs.map (fun q => u64Bytes q.1 ++ u32Bytes q.2)).flatten)) = some
        { isLeaf := false, records := ks.map (fun s => (s, none)), kids := qs } := by
  unfold nodeFromBytes
  simp only [readU8, Option.bind_eq_bind, Option.some_bind]
  have hshape : u32Bytes ks.length ++ (ks.map indexRecBytes).flatten ++
      (qs.map (fun q => u64Bytes q.1 ++ u32Bytes q.2)).flatten =
      u32Bytes ks.length ++ ((ks.map indexRecBytes).flatten ++
        ((qs.map (fun q => u64Bytes q.1 ++ u32Bytes q.2)).flatten ++ [])) := by
    simp [List.append_assoc]
  rw [hshape, readU32_pre ks.length _ hcnt]
  simp only [Option.some_bind]
  have h1 : (1 == 0) = false := rfl
  rw [h1]
  simp only [Bool.false_eq_true, if_false]
  rw [parseRecs_index_rt ks _ hgood]
  simp only [Option.some_bind]
  rw [← hqlen, parsePtrs_rt qs [] hqb]
  rfl

/-! ### Byte-range facts for the emitted file -/

theorem SegEq_left (file : List Nat) (off : Nat) (b1 b2 : List Nat)
    (h : SegEq file off (b1 ++ b2)) : SegEq file off b1 := by
  obtain ⟨h1, h2⟩ := h
  constructor
  · rw [List.length_append] at h1
    omega
  · have hx := congrArg (List.take b1.length) h2
    rw [List.take_take] at hx
    have hmin : min b1.length (b1 ++ b2).length = b1.length := by
      rw [List.length_append]
      omega
    rw [hmin, List.take_left] at hx
    exact hx

theorem SegEq_right (file : List Nat) (off : Nat) (b1 b2 : List Nat)
    (h : SegEq file off (b1 ++ b2)) : SegEq file (off + b1.length) b2 := by
  obtain ⟨h1, h2⟩ := h
  constructor
  · rw [List.length_append] at h1
    omega
  · have hx := congrArg (List.drop b1.length) h2
    rw [List.drop_take, List.drop_left] at hx
    have hlen : (b1 ++ b2).length - b1.length = b2.length := by
      rw [List.length_append]
      omega
    rw [hlen, List.drop_drop] at hx
    exact hx

theorem readSeg_SegEq (file : List Nat) (off : Nat) (bs : List Nat)
    (h : SegEq file off bs) : readSeg file off bs.length = some bs := by
  obtain ⟨h1, h2⟩ := h
  unfold readSeg
  rw [if_pos h1, h2]

theorem flattenK_len_ge (cs : List TNode) (h : ∀ c ∈ cs, flattenT c ≠ []) :
    cs.length ≤ (flattenK cs).length := by
  induction cs with
  | nil => simp [flattenK]
  | cons c rest ih =>
    rw [flattenK_cons, List.length_append, List.length_cons]
    have h1 : 1 ≤ (flattenT c).length := by
      have := h c (by simp)
      cases hx : flattenT c with
      | nil => exact absurd hx this
      | cons a l => simp
    have h2 := ih (fun c2 hc2 => h c2 (by simp [hc2]))
    omega

theorem flattenT_mem_len_le (c : TNode) (cs : List TNode) (h : c ∈ cs) :
    (flattenT c).length ≤ (flattenK cs).length := by
  induction cs with
  | nil => simp at h
  | cons x rest ih =>
    rw [flattenK_cons, List.length_append]
    rcases List.mem_cons.mp h with h1 | h1
    · rw [h1]
      omega
    · have := ih h1
      omega

/-! ### Step equations for the writer and the parser -/

theorem writeNode_leaf_step (compress : List Nat → List Nat) (f : Nat)
    (recs : List (Key × Value)) (off : Nat) (ll : Nat × Nat) :
    writeNode compress (f + 1) (.leaf recs) off ll =
      (if recs.length + 1 > 2 ^ 32 then none
       else
         let body := 0 :: (u32Bytes recs.length ++ (recs.map leafRecBytes).flatten ++
           u64Bytes ll.1 ++ u32Bytes ll.2)
         let buf := compress body
         some (buf, (off, buf.length), (off, buf.length))) := rfl

theorem writeNode_index_step (compress : List Nat → List Nat) (f : Nat)
    (recs : List Key) (children : List TNode) (off : Nat) (ll : Nat × Nat) :
    writeNode compress (f + 1) (.index recs children) off ll =
      (if recs.length + 1 > 2 ^ 32 then none
       else
         let step := fun (c : TNode) (acc : Option (List Nat × List (Nat × Nat) × (Nat × Nat))) =>
           match acc with
           | none => none
           | some (bR, psR, llR) =>
             match writeNode compress f c (off + bR.length) llR with
             | none => none
             | some (bC, pC, llC) => some (bR ++ bC, pC :: psR, llC)
         match children.foldr step (some ([], [], ll)) with
         | none => none
         | some (cbytes, cptrs, ll1) =>
           let body := 1 :: (u32Bytes recs.length ++ (recs.map indexRecBytes).flatten ++
             (cptrs.map (fun p => u64Bytes p.1 ++ u32Bytes p.2)).flatten)
           let buf := compress body
           some (cbytes ++ buf, (off + cbytes.length, buf.length), ll1)) := rfl

theorem parseNode_step (inflate : List Nat → Option (List Nat)) (file : List Nat) (f : Nat)
    (off sz : Nat) :
    parseNode inflate file (f + 1) off sz =
      (if sz = 0 then some (.leaf [], [])
       else
         match readSeg file off sz with
         | none => none
         | some bytes =>
           match inflate bytes with
           | none => none
           | some data =>
             match nodeFromBytes data with
             | none => none
             | some pn =>
               if pn.isLeaf then
                 match liftValues pn.records with
                 | none => none
                 | some recs => some (.leaf recs, [recs])
               else
                 let step := fun (acc : Option (List TNode × List (List (Key × Value)) × Bool))
                     (p : Nat × Nat) =>
                   match acc with
                   | none => none
                   | some (cs, lvs, stopped) =>
                     if stopped then some (cs, lvs, stopped)
                     else if p.2 = 0 then some (cs, lvs, true)
                     else
                       match parseNode inflate file f p.1 p.2 with
                       | none => none
                       | some (c, lv) => some (cs ++ [c], lvs ++ lv, false)
                 match pn.kids.foldl step (some ([], [], false)) with
                 | none => none
                 | some (children, leaves, _) =>
                   some (.index (pn.records.map Prod.fst) children, leaves)) := rfl

/-- The child loop of `parse_node` over a pointer list whose every entry
has a non-zero size and parses successfully: it collects the parsed
children and their leaves in order, never stopping. -/
theorem parseNode_foldl (inflate : List Nat → Option (List Nat)) (file : List Nat) (f : Nat) :
    ∀ (H : List ((Nat × Nat) × TNode × List (List (Key × Value))))
      (cs0 : List TNode) (lvs0 : List (List (Key × Value))),
      (∀ e ∈ H, e.1.2 ≠ 0 ∧ parseNode inflate file f e.1.1 e.1.2 = some (e.2.1, e.2.2)) →
      (H.map (fun e => e.1)).foldl
        (fun (acc : Option (List TNode × List (List (Key × Value)) × Bool)) (p : Nat × Nat) =>
          match acc with
          | none => none
          | some (cs, lvs, stopped) =>
            if stopped then some (cs, lvs, stopped)
            else if p.2 = 0 then some (cs, lvs, true)
            else
              match parseNode inflate file f p.1 p.2 with
              | none => none
              | some (c, lv) => some (cs ++ [c], lvs ++ lv, false))
        (some (cs0, lvs0, false)) =
      some (cs0 ++ H.map (fun e => e.2.1), lvs0 ++ (H.map (fun e => e.2.2)).flatten, false) := by
  intro H
  induction H with
  | nil =>
    intro cs0 lvs0 hH
    simp
  | cons e H2 ih =>
    intro cs0 lvs0 hH
    obtain ⟨⟨q1, q2⟩, tC, lvC⟩ := e
    have he := hH ⟨⟨q1, q2⟩, tC, lvC⟩ (by simp)
    simp only at he
    simp only [List.map_cons, List.foldl_cons]
    simp only [Bool.false_eq_true, if_false]
    rw [if_neg he.1, he.2]
    rw [ih (cs0 ++ [tC]) (lvs0 ++ lvC) (fun q hq => hH q (by simp [hq]))]
    simp [List.append_assoc]

/-- `Tree::write_to` on a well-formed subtree emits a byte run that
`parse_node` decodes back, collecting exactly the subtree's leaf record
lists in left-to-right order. -/
theorem writeNode_parse (compress : List Nat → List Nat) (inflate : List Nat → Option (List Nat))
    (hinv : ∀ bs, inflate (compress bs) = some bs)
    (hcnz : ∀ bs, bs ≠ [] → compress bs ≠ []) :
    ∀ f (t : TNode) (lo hi : Option Key), WF lo hi t → t.height ≤ f →
      (flattenT t).length < 2 ^ 32 → ∀ (off : Nat) (ll : Nat × Nat),
      ∃ bytes nptr ll2 t2, writeNode compress f t off ll = some (bytes, nptr, ll2) ∧
        off ≤ nptr.1 ∧ nptr.1 + nptr.2 = off + bytes.length ∧ 0 < nptr.2 ∧
        ∀ file, file.length < 2 ^ 32 → SegEq file off bytes →
          parseNode inflate file f nptr.1 nptr.2 = some (t2, leavesOf t) := by
  intro f
  induction f with
  | zero =>
    intro t lo hi hwf hh
    exact absurd hh (by have := TNode.height_pos t; omega)
  | succ f ihf =>
    intro t lo hi hwf hh hflat off ll
    cases hwf with
    | leaf lo hi recs hne hsort hbnd hgood =>
      have hcnt : recs.length < 2 ^ 32 := by
        have hx : flattenT (TNode.leaf recs) = recs := rfl
        rw [hx] at hflat
        exact hflat
      set body := 0 :: (u32Bytes recs.length ++ (recs.map leafRecBytes).flatten ++
        u64Bytes ll.1 ++ u32Bytes ll.2) with hbody_def
      set buf := compress body with hbuf_def
      have hbody_ne : body ≠ [] := by rw [hbody_def]; simp
      have hbufne : buf ≠ [] := by rw [hbuf_def]; exact hcnz body hbody_ne
      have hbufpos : 0 < buf.length := List.length_pos.mpr hbufne
      obtain ⟨kd, hnfb⟩ := nodeFromBytes_leaf recs ll.1 ll.2 hcnt hgood
      rw [← hbody_def] at hnfb
      refine ⟨buf, (off, buf.length), (off, buf.length), .leaf recs, ?_,
        le_refl _, rfl, hbufpos, ?_⟩
      · rw [writeNode_leaf_step, if_neg (by omega)]
      · intro file hflen hseg
        show parseNode inflate file (f + 1) off buf.length = some (.leaf recs, leavesOf (.leaf recs))
        rw [parseNode_step, if_neg (by omega : ¬(buf.length = 0))]
        rw [readSeg_SegEq file off buf hseg]
        dsimp only
        rw [hbuf_def, hinv body]
        dsimp only
        rw [hnfb]
        dsimp only
        rw [liftValues_map recs]
        rfl
    | index lo hi recs children hne hclen hgoodK hsepB hsortI hkids =>
      have hflatI : flattenT (TNode.index recs children) = flattenK children := rfl
      rw [hflatI] at hflat
      have hflat_ne : ∀ c ∈ children, flattenT c ≠ [] := by
        intro c hc
        obtain ⟨j, hj, hjeq⟩ := List.getElem_of_mem hc
        have hx := (WF_flatten_facts (children.getD j (.leaf []))
          (sepLo lo recs j) (sepHi hi recs j) (hkids j hj)).1
        rw [List.getD_eq_getElem _ _ hj, hjeq] at hx
        exact hx
      have hcwf : ∀ c ∈ children, ∃ lo2 hi2, WF lo2 hi2 c := by
        intro c hc
        obtain ⟨j, hj, hjeq⟩ := List.getElem_of_mem hc
        refine ⟨sepLo lo recs j, sepHi hi recs j, ?_⟩
        have hx := hkids j hj
        rw [List.getD_eq_getElem _ _ hj, hjeq] at hx
        exact hx
      have hch : ∀ c ∈ children, c.height ≤ f := by
        intro c hc
        have h1 := height_mem_le c children hc
        have h2 : (TNode.index recs children).height = 1 + heightK children := by
          simp [TNode.height]
        omega
      have hcflat : ∀ c ∈ children, (flattenT c).length < 2 ^ 32 := by
        intro c hc
        have hx := flattenT_mem_len_le c children hc
        omega
      have hcnt : recs.length + 1 ≤ 2 ^ 32 := by
        have h1 := flattenK_len_ge children hflat_ne
        omega
      have inner : ∀ (cs : List TNode),
          (∀ c ∈ cs, (∃ lo2 hi2, WF lo2 hi2 c) ∧ c.height ≤ f ∧ (flattenT c).length < 2 ^ 32) →
          ∀ (off2 : Nat) (ll2 : Nat × Nat),
          ∃ (cbytes : List Nat) (H : List ((Nat × Nat) × TNode × List (List (Key × Value))))
            (ll3 : Nat × Nat),
            cs.foldr (fun (c : TNode) (acc : Option (List Nat × List (Nat × Nat) × (Nat × Nat))) =>
                match acc with
                | none => none
                | some (bR, psR, llR) =>
                  match writeNode compress f c (off2 + bR.length) llR with
                  | none => none
                  | some (bC, pC, llC) => some (bR ++ bC, pC :: psR, llC))
              (some ([], [], ll2)) = some (cbytes, H.map (fun e => e.1), ll3) ∧
            H.length = cs.length ∧
            (H.map (fun e => e.2.2)).flatten = leavesOfK cs ∧
            (∀ q ∈ H.map (fun e => e.1),
              off2 ≤ q.1 ∧ q.1 + q.2 ≤ off2 + cbytes.length ∧ 0 < q.2) ∧
            (∀ file, file.length < 2 ^ 32 → SegEq file off2 cbytes →
              ∀ e ∈ H, e.1.2 ≠ 0 ∧ parseNode inflate file f e.1.1 e.1.2 =
                some (e.2.1, e.2.2)) := by
        intro cs
        induction cs with
        | nil =>
          intro hcs off2 ll2
          refine ⟨[], [], ll2, rfl, rfl, rfl, ?_, ?_⟩
          · intro q hq
            simp at hq
          · intro file h1 h2 e he
            simp at he
        | cons c cs2 ihc =>
          intro hcs off2 ll2
          obtain ⟨bR, H2, llR, hfoldR, hlenR, hleqR, hptrR, hparseR⟩ :=
            ihc (fun x hx => hcs x (by simp [hx])) off2 ll2
          obtain ⟨⟨lo2, hi2, hwfc⟩, hhc, hfc⟩ := hcs c (by simp)
          obtain ⟨bC, pC, llC, tC, hwC, hb1, hb2, hb3, hparseC⟩ :=
            ihf c lo2 hi2 hwfc hhc hfc (off2 + bR.length) llR
          refine ⟨bR ++ bC, (pC, tC, leavesOf c) :: H2, llC, ?_, ?_, ?_, ?_, ?_⟩
          · rw [List.foldr_cons, hfoldR]
            dsimp only
            rw [hwC]
            simp [List.map_cons]
          · simp [hlenR]
          · simp only [List.map_cons]
            rw [List.flatten_cons, hleqR]
            rfl
          · intro q hq
            simp only [List.map_cons, List.mem_cons] at hq
            rcases hq with hq | hq
            · subst hq
              rw [List.length_append]
              exact ⟨by omega, by omega, hb3⟩
            · have hx := hptrR q hq
              rw [List.length_append]
              exact ⟨hx.1, by omega, hx.2.2⟩
          · intro file hflen hseg e he
            have hsegL := SegEq_left file off2 bR bC hseg
            have hsegR := SegEq_right file off2 bR bC hseg
            rcases List.mem_cons.mp he with he1 | he1
            · subst he1
              refine ⟨by show pC.2 ≠ 0; omega, ?_⟩
              show parseNode inflate file f pC.1 pC.2 = some (tC, leavesOf c)
              exact hparseC file hflen hsegR
            · exact hparseR file hflen hsegL e he1
      obtain ⟨cbytes, H, ll3, hfold, hHlen, hleq, hptrb, hparse⟩ := inner children
        (fun c hc => ⟨hcwf c hc, hch c hc, hcflat c hc⟩) off ll
      set cptrs := H.map (fun e => e.1) with hcptrs_def
      set body := 1 :: (u32Bytes recs.length ++ (recs.map indexRecBytes).flatten ++
        (cptrs.map (fun p => u64Bytes p.1 ++ u32Bytes p.2)).flatten) with hbody_def
      set buf := compress body with hbuf_def
      have hbody_ne : body ≠ [] := by rw [hbody_def]; simp
      have hbufne : buf ≠ [] := by rw [hbuf_def]; exact hcnz body hbody_ne
      have hbufpos : 0 < buf.length := List.length_pos.mpr hbufne
      have hqlen2 : cptrs.length = recs.length + 1 := by
        rw [hcptrs_def, List.length_map, hHlen, hclen]
      refine ⟨cbytes ++ buf, (off + cbytes.length, buf.length), ll3,
        .index ((recs.map (fun s => (s, (none : Option Value)))).map Prod.fst)
          (H.map (fun e => e.2.1)),
        ?_, ?_, ?_, ?_, ?_⟩
      · rw [writeNode_index_step, if_neg (by omega)]
        dsimp only
        rw [hfold]
      · show off ≤ off + cbytes.length
        omega
      · show off + cbytes.length + buf.length = off + (cbytes ++ buf).length
        rw [List.length_append]
        omega
      · show 0 < buf.length
        exact hbufpos
      · intro file hflen hseg
        have hsegL := SegEq_left file off cbytes buf hseg
        have hsegR := SegEq_right file off cbytes buf hseg
        have hflb : off + (cbytes ++ buf).length ≤ file.length := hseg.1
        rw [List.length_append] at hflb
        have hqb : ∀ q ∈ cptrs, q.1 < 2 ^ 64 ∧ q.2 < 2 ^ 32 := by
          intro q hq
          have hx := hptrb q hq
          constructor
          · have : q.1 < 2 ^ 32 := by omega
            omega
          · omega
        have hnfb : nodeFromBytes body =
            some ⟨false, recs.map (fun s => (s, (none : Option Value))), cptrs⟩ := by
          rw [hbody_def]
          exact nodeFromBytes_index recs cptrs (by omega) hgoodK hqlen2 hqb
        show parseNode inflate file (f + 1) (off + cbytes.length) buf.length =
          some (.index ((recs.map (fun s => (s, (none : Option Value)))).map Prod.fst)
            (H.map (fun e => e.2.1)), leavesOf (.index recs children))
        rw [parseNode_step, if_neg (by omega : ¬(buf.length = 0))]
        rw [readSeg_SegEq file (off + cbytes.length) buf hsegR]
        dsimp only
        rw [hbuf_def, hinv body]
        dsimp only
        rw [hnfb]
        dsimp only
        simp only [Bool.false_eq_true, if_false]
        rw [hcptrs_def]
        rw [parseNode_foldl inflate file f H [] [] (hparse file hflen hsegL)]
        dsimp only
        simp only [List.nil_append]
        rw [hleq]
        rfl

/-- C3. For any pairs inserted into a tree that is then serialized with
`write_to` and reparsed with `from_file`, `traverse` on the reparsed tree
yields exactly the same multiset of pairs, in ascending smoothed-key
order.  Keys must be valid UTF-8 with `u32`-sized lengths and counts (they
are `String`s and `u32` fields in the source), the Deflate codec must
round-trip with non-empty output, and the emitted file must fit the `u32`
offsets the format stores; the fuel is an embedding artifact, any value
above the inserted count works. -/
theorem c3_round_trip (compress : List Nat → List Nat) (inflate : List Nat → Option (List Nat))
    (fuel limI limL : Nat) (pad : List Nat) (ps : List (Key × Value))
    (hinv : ∀ bs, inflate (compress bs) = some bs)
    (hcnz : ∀ bs, bs ≠ [] → compress bs ≠ [])
    (hgood : ∀ p ∈ ps, goodKey p.1 ∧ goodVal p.2)
    (hps : ps.length < 2 ^ 32) (hfuel : ps.length + 1 ≤ fuel) :
    ∃ t bytes rootPtr, buildTree fuel limI limL ps = some t ∧
      BelTree.writeTo compress t fuel pad.length = some (bytes, rootPtr) ∧
      (pad.length + bytes.length < 2 ^ 32 →
        ∃ l, roundTrip compress inflate fuel limI limL pad ps = some l ∧
          l.Perm ps ∧ List.Pairwise leSm l) := by
  obtain ⟨t, hbuild, hlimI, hlimL, hinv2⟩ :=
    buildTree_WF fuel limI limL ps hgood (by omega)
  rcases hinv2 with ⟨hroot, hempty⟩ | ⟨hwf, hperm, hh⟩
  · -- no pairs: nothing is written and nothing is parsed
    have hw : BelTree.writeTo compress t fuel pad.length = some ([], (0, 0)) := by
      unfold BelTree.writeTo
      rw [hroot]
      rfl
    refine ⟨t, [], (0, 0), hbuild, hw, ?_⟩
    intro hbound
    subst hempty
    refine ⟨[], ?_, List.Perm.refl [], List.Pairwise.nil⟩
    unfold roundTrip
    rw [hbuild]
    dsimp only
    rw [hw]
    dsimp only
    cases fuel with
    | zero => omega
    | succ f =>
      rw [parseNode_step, if_pos rfl]
      rfl
  · have hflatlen : (flattenT t.root).length = ps.length := hperm.length_eq
    have hhf : t.root.height ≤ fuel := by omega
    obtain ⟨bytes, nptr, ll2, t2, hw, hoff, hsum, hpos, hpar⟩ :=
      writeNode_parse compress inflate hinv hcnz fuel t.root none none hwf hhf
        (by omega) pad.length (0, 0)
    have hrlen := WF_recordsLen_pos none none t.root hwf
    have hwto : BelTree.writeTo compress t fuel pad.length = some (bytes, nptr) := by
      unfold BelTree.writeTo
      rw [if_neg hrlen, hw]
    refine ⟨t, bytes, nptr, hbuild, hwto, ?_⟩
    intro hbound
    have hflen : (pad ++ bytes).length < 2 ^ 32 := by
      rw [List.length_append]
      exact hbound
    have hseg : SegEq (pad ++ bytes) pad.length bytes := by
      constructor
      · rw [List.length_append]
      · rw [List.drop_left, List.take_length]
    have hparsed := hpar (pad ++ bytes) hflen hseg
    refine ⟨flattenT t.root, ?_, hperm, (WF_flatten_facts t.root none none hwf).2.1⟩
    unfold roundTrip
    rw [hbuild]
    dsimp only
    rw [hwto]
    dsimp only
    rw [hparsed]
    dsimp only
    show some (traverseList (leavesOf t.root)) = some (flattenT t.root)
    unfold traverseList
    rw [(leavesOf_flatten_all).1 t.root]

/-- Witness for C3: two pairs inserted in descending key order come back
from the persisted file as the ascending list, all hypotheses checked at
the concrete input. -/
theorem c3_round_trip_witness :
    (∀ p ∈ ([([98], [50]), ([97], [49])] : List (Key × Value)), goodKey p.1 ∧ goodVal p.2) ∧
    ∃ l, roundTrip id some 3 1000 1000 [] [([98], [50]), ([97], [49])] = some l ∧
      l.Perm [([98], [50]), ([97], [49])] ∧ List.Pairwise leSm l := by
  have hg : ∀ p ∈ ([([98], [50]), ([97], [49])] : List (Key × Value)),
      goodKey p.1 ∧ goodVal p.2 := by
    intro p hp
    rcases List.mem_cons.mp hp with h | hp2
    · rw [h]
      exact ⟨⟨by decide, by decide⟩, show ([50] : List Nat).length < 2 ^ 32 by decide⟩
    · rcases List.mem_cons.mp hp2 with h | hp3
      · rw [h]
        exact ⟨⟨by decide, by decide⟩, show ([49] : List Nat).length < 2 ^ 32 by decide⟩
      · simp at hp3
  refine ⟨hg, ?_⟩
  obtain ⟨t, bytes, rootPtr, h1, h2, h3⟩ := c3_round_trip id some 3 1000 1000 []
    [([98], [50]), ([97], [49])] (fun bs => rfl) (fun bs h => h) hg (by decide)
    (by decide)
  refine h3 ?_
  have e1 : buildTree 3 1000 1000 [([98], [50]), ([97], [49])] =
      some ⟨TNode.leaf [([97], [49]), ([98], [50])], 1000, 1000⟩ := rfl
  rw [e1] at h1
  injection h1 with h1
  subst h1
  have e2 : BelTree.writeTo id ⟨TNode.leaf [([97], [49]), ([98], [50])], 1000, 1000⟩ 3
      (List.length ([] : List Nat)) =
      some ([0, 0, 0, 0, 2, 0, 0, 0, 1, 97, 0, 0, 0, 1, 49, 0, 0, 0, 1, 98, 0, 0, 0, 1, 50,
        0, 0, 0, 0, 0, 0, 0, 0, 0, 0, 0, 0], (0, 37)) := rfl
  rw [e2] at h2
  injection h2 with h2
  have hb : ([0, 0, 0, 0, 2, 0, 0, 0, 1, 97, 0, 0, 0, 1, 49, 0, 0, 0, 1, 98, 0, 0, 0, 1, 50,
      0, 0, 0, 0, 0, 0, 0, 0, 0, 0, 0, 0] : List Nat) = bytes := congrArg Prod.fst h2
  rw [← hb]
  decide
